import Mathlib

/-!
# Sharded buffer cache (`CacheManager.go`): embedding and verification

The Go package `cache` keeps reference-counted byte buffers (`chached`, the pooled
variant, and `sDirect`, the wrapper over caller data) and a manager (`buffer`)
holding one channel of idle buffers per processor together with two rotating
cursors.

Embedding conventions.
* Pointers are addresses (indices) into a heap kept in `World`; a method call on a
  dangling address is the nil-dereference fault of Go.
* `int32` fields are `Int` values, every `atomic.AddInt32` result is reduced by
  `wrap32` (two's complement wrap-around); `int` values that are only stored or
  divided are plain `Int`.
* A Go panic is `Outcome.fault`, carrying the state at the moment of the panic.
* `bytes.Buffer`, channels and `sync/atomic` belong to the Go library: they are
  modelled from their documented behaviour.  The runtime refuses an allocation
  above `maxAlloc` with a panic (`makechan: size out of range`, `ErrTooLarge`);
  the constants are those of a 64-bit platform.  A request within that limit is
  granted: the exhaustion of the machine's memory is not a panic and is not
  modelled.  The read offset of `bytes.Buffer` is not modelled because no
  operation of the package consumes bytes.
-/

namespace Cache

/-- A byte of buffer content. -/
abbrev Byte := Fin 256

/-- A heap address: the value of a Go pointer. -/
abbrev Addr := Nat

/-- The int32 value of an integer result: two's complement wrap-around. -/
def wrap32 (x : Int) : Int := (x + 2147483648) % 4294967296 - 2147483648

/-- The values an `int32` variable can hold. -/
def isInt32 (x : Int) : Prop := -2147483648 ≤ x ∧ x ≤ 2147483647

instance (x : Int) : Decidable (isInt32 x) := by
  unfold isInt32; exact inferInstance

/-- Run-time panics that the modelled code can raise. -/
inductive Fault where
  | nilDeref
  | indexOutOfRange
  | divideByZero
  | negativeGrow
  | negativeRead
  | sliceBounds
  | makeOutOfRange
  | tooLarge
  | readerPanic (code : Nat)
  deriving DecidableEq

/-- Runtime constant `maxAlloc` of a 64-bit platform, 2^48: the runtime panics on a
request for more bytes. -/
def maxAlloc : Nat := 281474976710656

/-- Runtime constant `hchanSize` of a 64-bit platform: the bytes of a channel header
(96 up to Go 1.22; a release with a larger header lowers the limit of a channel's
capacity by one). -/
def hchanSize : Nat := 96

/-- The bytes of one `ICache` value, an interface, on a 64-bit platform. -/
def ifaceSize : Nat := 16

/-- The bytes of one channel value, a pointer, on a 64-bit platform. -/
def ptrSize : Nat := 8

/-- A Go `error` value other than nil. -/
inductive GoError where
  | EOF
  | other (code : Nat)
  deriving DecidableEq

/-! ## `bytes.Buffer` -/

/-- The `bytes.Buffer` of the Go library: the unread content and the capacity of the
backing slice.  A capacity of zero stands for the nil slice of the zero value. -/
structure BytesBuffer where
  buf : List Byte
  cap : Nat
  deriving DecidableEq

namespace BytesBuffer

/-- Library constant `MinRead`. -/
def MinRead : Nat := 512

/-- Capacity after `grow(n)`: unchanged when `n` more bytes fit (reslice), otherwise
the least capacity with room for them.  The library may take more (the small buffer
of 64 bytes, doubling, the rounding of the allocator), so this is a lower bound of the
real capacity. -/
def growCap (b : BytesBuffer) (n : Nat) : Nat :=
  if n ≤ b.cap - b.buf.length then b.cap
  else b.buf.length + n

/-- Library `grow(n)`: when `n` more bytes do not fit, the library asks the allocator
for at least the needed length; a request above `maxAlloc` panics and the library
re-panics with `ErrTooLarge`.  For the zero value, as in `New`, the library asks for
64 bytes or for the needed length itself, so the panic is decided exactly; for a
buffer with storage the library may ask for more (doubling), and the model has the
panic where it is certain. -/
def grow (b : BytesBuffer) (n : Nat) : Except Fault BytesBuffer :=
  if ¬ n ≤ b.cap - b.buf.length ∧ maxAlloc < b.buf.length + n then .error .tooLarge
  else .ok { b with cap := b.growCap n }

/-- The zero value of `bytes.Buffer`. -/
def zero : BytesBuffer := { buf := [], cap := 0 }

/-- Library `bytes.NewBuffer(data)`: the buffer reads and writes the given slice.  Spare
capacity of the caller's slice beyond its length is not modelled. -/
def NewBuffer (data : List Byte) : BytesBuffer := { buf := data, cap := data.length }

/-- Library `Reset`: truncates the content, keeps the storage. -/
def Reset (b : BytesBuffer) : BytesBuffer := { b with buf := [] }

/-- Library `Bytes`: the unread content. -/
def Bytes (b : BytesBuffer) : List Byte := b.buf

/-- Library `Grow(n)`: panics on a negative count and with `ErrTooLarge` when the
buffer cannot grow, otherwise guarantees room for `n` more bytes and leaves the
content as it is. -/
def Grow (b : BytesBuffer) (n : Int) : Except Fault BytesBuffer :=
  if n < 0 then .error .negativeGrow
  else b.grow n.toNat

/-- Library `Write(p)`: appends `p`, growing as needed; returns `len(p)` and a nil
error, or panics with `ErrTooLarge` when the buffer cannot grow. -/
def Write (b : BytesBuffer) (p : List Byte) : Except Fault (BytesBuffer × Nat × Option GoError) :=
  match b.grow p.length with
  | .error f => .error f
  | .ok g => .ok ({ g with buf := g.buf ++ p }, p.length, none)

end BytesBuffer

/-- One call of `Read` on an `io.Reader`, as scripted by the environment: the bytes
it put into the slice it was offered with its error result, a negative count, a
count above the length of the slice it was offered, or a panic of the reader. -/
inductive ReadCall where
  | bytes (data : List Byte) (e : Option GoError)
  | negative (e : Option GoError)
  | overrun (e : Option GoError)
  | panics (code : Nat)
  deriving DecidableEq

/-- How a call of `ReadFrom` ends: it returns a count and an error, or it panics. -/
inductive ReadResult where
  | returned (n : Nat) (err : Option GoError)
  | panicked (f : Fault)
  deriving DecidableEq

namespace BytesBuffer

/-- Library `ReadFrom(r)`: makes room for `MinRead` bytes (panicking with
`ErrTooLarge` when the buffer cannot grow), reads, appends, and goes on until the
reader reports `io.EOF` (returned as nil) or another error.  A negative count
panics, and so does the reslice after a count above the offered length.  The reader
is the list of the results of its successive `Read` calls; a reader whose script is
used up reports `io.EOF`.  The bytes of a call fitted the slice that was offered, so
the capacity is at least the new length.  `n` is the count accumulated so far. -/
def ReadFrom (b : BytesBuffer) (n : Nat) : List ReadCall → BytesBuffer × ReadResult
  | [] =>
    match b.grow MinRead with
    | .error f => (b, .panicked f)
    | .ok g => (g, .returned n none)
  | .panics code :: _ =>
    match b.grow MinRead with
    | .error f => (b, .panicked f)
    | .ok g => (g, .panicked (.readerPanic code))
  | .negative _ :: _ =>
    match b.grow MinRead with
    | .error f => (b, .panicked f)
    | .ok g => (g, .panicked .negativeRead)
  | .overrun _ :: _ =>
    match b.grow MinRead with
    | .error f => (b, .panicked f)
    | .ok g => (g, .panicked .sliceBounds)
  | .bytes data e :: rest =>
    match b.grow MinRead with
    | .error f => (b, .panicked f)
    | .ok g =>
      match e with
      | some .EOF =>
        ({ buf := g.buf ++ data, cap := max g.cap (g.buf.length + data.length) },
          .returned (n + data.length) none)
      | some err =>
        ({ buf := g.buf ++ data, cap := max g.cap (g.buf.length + data.length) },
          .returned (n + data.length) (some err))
      | none =>
        ReadFrom { buf := g.buf ++ data, cap := max g.cap (g.buf.length + data.length) }
          (n + data.length) rest

end BytesBuffer

/-! ## Heap objects -/

/-- The dynamic type of an `ICache` value: `*chached` or `*sDirect`. -/
inductive Kind where
  | chached
  | sDirect
  deriving DecidableEq

/-- A heap object implementing `ICache`.  Both struct types of the source have the
same three fields: the byte storage (embedded in `chached`, behind the pointer `buf`
owned by the `sDirect`), the reference count, and the pointer to the manager. -/
structure Obj where
  kind : Kind
  buf : BytesBuffer
  count : Int
  cache : Addr
  deriving DecidableEq

/-- A buffered channel of `ICache` values: the queued addresses, oldest first, and
the capacity fixed by `make`. -/
structure Chan where
  queue : List Addr
  cap : Nat
  deriving DecidableEq

/-- The manager struct `buffer` of the source. -/
structure buffer where
  buffers : List Chan
  size : Int
  num : Int
  read : Int
  write : Int
  deriving DecidableEq

/-- A line written by `log.Println`. -/
inductive LogItem where
  | error (e : GoError)
  | recovered (f : Fault)
  deriving DecidableEq

/-- The program state: the heap of `ICache` objects, the heap of managers, the log
output, and a ghost history of the calls of `push` (manager, buffer). -/
structure World where
  objs : List Obj
  mgrs : List buffer
  logged : List LogItem
  pushes : List (Addr × Addr)
  deriving DecidableEq

/-- The state before anything is allocated. -/
def World.empty : World := { objs := [], mgrs := [], logged := [], pushes := [] }

/-- Store an object at an address. -/
def World.setObj (w : World) (b : Addr) (o : Obj) : World :=
  { w with objs := w.objs.set b o }

/-- Store a manager at an address. -/
def World.setMgr (w : World) (m : Addr) (c : buffer) : World :=
  { w with mgrs := w.mgrs.set m c }

/-- The result of running a piece of code: normal return with a value, or a panic. -/
inductive Outcome (α : Type) where
  | ok (w : World) (r : α)
  | fault (w : World) (f : Fault)
  deriving DecidableEq

/-- The state in which a piece of code ended. -/
def Outcome.world {α : Type} : Outcome α → World
  | .ok w _ => w
  | .fault w _ => w

/-! ## Methods of `chached` and `sDirect` -/

/-- Method `Reset` promoted from the embedded `bytes.Buffer` of `chached`. -/
def chached.Reset (o : Obj) : Obj := { o with buf := o.buf.Reset }

/-- Method `Bytes` promoted from the embedded `bytes.Buffer` of `chached`. -/
def chached.Bytes (o : Obj) : List Byte := o.buf.Bytes

/-- Method `Write` promoted from the embedded `bytes.Buffer` of `chached`. -/
def chached.Write (o : Obj) (p : List Byte) : Except Fault (Obj × Nat × Option GoError) :=
  match o.buf.Write p with
  | .error f => .error f
  | .ok r => .ok ({ o with buf := r.1 }, r.2)

/-- Method `ReadFrom` promoted from the embedded `bytes.Buffer` of `chached`. -/
def chached.ReadFrom (o : Obj) (r : List ReadCall) : Obj × ReadResult :=
  ({ o with buf := (o.buf.ReadFrom 0 r).1 }, (o.buf.ReadFrom 0 r).2)

/-- Source `func (b *chached) Get() *bytes.Buffer`. -/
def chached.Get (o : Obj) : BytesBuffer := o.buf

/-- Source `func (b *chached) Incement()`: `atomic.AddInt32(&b.count, 1)`. -/
def chached.Incement (o : Obj) : Obj := { o with count := wrap32 (o.count + 1) }

/-- Source `func (b *sDirect) Reset()`. -/
def sDirect.Reset (o : Obj) : Obj := { o with buf := o.buf.Reset }

/-- Source `func (b *sDirect) Bytes() []byte`. -/
def sDirect.Bytes (o : Obj) : List Byte := o.buf.Bytes

/-- Source `func (b *sDirect) Write(p []byte) (n int, err error)`. -/
def sDirect.Write (o : Obj) (p : List Byte) : Except Fault (Obj × Nat × Option GoError) :=
  match o.buf.Write p with
  | .error f => .error f
  | .ok r => .ok ({ o with buf := r.1 }, r.2)

/-- Source `func (b *sDirect) ReadFrom(r io.Reader) (n int64, err error)`. -/
def sDirect.ReadFrom (o : Obj) (r : List ReadCall) : Obj × ReadResult :=
  ({ o with buf := (o.buf.ReadFrom 0 r).1 }, (o.buf.ReadFrom 0 r).2)

/-- Source `func (b *sDirect) Get() *bytes.Buffer`. -/
def sDirect.Get (o : Obj) : BytesBuffer := o.buf

/-- Source `func (b *sDirect) Incement()`: `atomic.AddInt32(&b.count, 1)`. -/
def sDirect.Incement (o : Obj) : Obj := { o with count := wrap32 (o.count + 1) }

/-! ## Interface dispatch on heap addresses -/

/-- Interface call `b.Reset()`. -/
def ICache.Reset (w : World) (b : Addr) : Outcome Unit :=
  match w.objs[b]? with
  | none => .fault w .nilDeref
  | some o =>
    match o.kind with
    | .chached => .ok (w.setObj b (chached.Reset o)) ()
    | .sDirect => .ok (w.setObj b (sDirect.Reset o)) ()

/-- Interface call `b.Bytes()`. -/
def ICache.Bytes (w : World) (b : Addr) : Outcome (List Byte) :=
  match w.objs[b]? with
  | none => .fault w .nilDeref
  | some o =>
    match o.kind with
    | .chached => .ok w (chached.Bytes o)
    | .sDirect => .ok w (sDirect.Bytes o)

/-- Interface call `b.Write(p)`. -/
def ICache.Write (w : World) (b : Addr) (p : List Byte) : Outcome (Nat × Option GoError) :=
  match w.objs[b]? with
  | none => .fault w .nilDeref
  | some o =>
    match o.kind with
    | .chached =>
      match chached.Write o p with
      | .error f => .fault w f
      | .ok r => .ok (w.setObj b r.1) r.2
    | .sDirect =>
      match sDirect.Write o p with
      | .error f => .fault w f
      | .ok r => .ok (w.setObj b r.1) r.2

/-- Interface call `b.ReadFrom(r)`: a panic inside the read leaves the bytes read so
far in the buffer. -/
def ICache.ReadFrom (w : World) (b : Addr) (r : List ReadCall) :
    Outcome (Nat × Option GoError) :=
  match w.objs[b]? with
  | none => .fault w .nilDeref
  | some o =>
    match o.kind with
    | .chached =>
      match (chached.ReadFrom o r).2 with
      | .returned n err => .ok (w.setObj b (chached.ReadFrom o r).1) (n, err)
      | .panicked f => .fault (w.setObj b (chached.ReadFrom o r).1) f
    | .sDirect =>
      match (sDirect.ReadFrom o r).2 with
      | .returned n err => .ok (w.setObj b (sDirect.ReadFrom o r).1) (n, err)
      | .panicked f => .fault (w.setObj b (sDirect.ReadFrom o r).1) f

/-- Interface call `b.Incement()`. -/
def ICache.Incement (w : World) (b : Addr) : Outcome Unit :=
  match w.objs[b]? with
  | none => .fault w .nilDeref
  | some o =>
    match o.kind with
    | .chached => .ok (w.setObj b (chached.Incement o)) ()
    | .sDirect => .ok (w.setObj b (sDirect.Incement o)) ()

/-! ## The manager -/

/-- Source `func NewCache(count int, size int) IBuffer`.  `numCPU` is the value of
`runtime.NumCPU()`.  `make` panics on a negative length or capacity and on one whose
bytes exceed the limit of the runtime (`mem > maxAlloc` for the slice,
`mem > maxAlloc - hchanSize` for a channel); the loop stores a fresh empty channel of
capacity `count / numCPU` (truncating division) in each of the `num` slots, so a
division by zero can only happen when the loop body runs. -/
def NewCache (w : World) (numCPU : Int) (count size : Int) : Outcome Addr :=
  let num := wrap32 numCPU
  if num < 0 ∨ (maxAlloc : Int) < ptrSize * num then .fault w .makeOutOfRange
  else if num = 0 then
    .ok { w with mgrs := w.mgrs ++ [{ buffers := [], size := size, num := num,
                                       read := 0, write := Int.tdiv num 2 }] }
      w.mgrs.length
  else if numCPU = 0 then .fault w .divideByZero
  else if Int.tdiv count numCPU < 0 ∨
      ((maxAlloc - hchanSize : Nat) : Int) < ifaceSize * Int.tdiv count numCPU then
    .fault w .makeOutOfRange
  else
    .ok { w with mgrs := w.mgrs ++
            [{ buffers := List.replicate num.toNat
                            { queue := [], cap := (Int.tdiv count numCPU).toNat },
               size := size, num := num, read := 0, write := Int.tdiv num 2 }] }
      w.mgrs.length

/-- Source `func (cache *buffer) push(buffer ICache)`.  A `*sDirect` is reset and
nothing else happens.  Any other buffer is reset, the write cursor is advanced
atomically, and the remainder by `num` is computed and discarded: nothing is sent
on a channel.  The call is recorded in the ghost history. -/
def buffer.push (w : World) (m : Addr) (b : Addr) : Outcome Unit :=
  let w0 : World := { w with pushes := w.pushes ++ [(m, b)] }
  match w0.objs[b]? with
  | none => .fault w0 .nilDeref
  | some o =>
    match o.kind with
    | .sDirect => ICache.Reset w0 b
    | .chached =>
      match ICache.Reset w0 b with
      | .fault w1 f => .fault w1 f
      | .ok w1 _ =>
        match w1.mgrs[m]? with
        | none => .fault w1 .nilDeref
        | some c =>
          let w2 := w1.setMgr m { c with write := wrap32 (c.write + 1) }
          if c.num = 0 then .fault w2 .divideByZero
          else .ok w2 ()

/-- Source `func (b *chached) Decrement()`: the count is decremented atomically and
`push` is called when the new value is zero. -/
def chached.Decrement (w : World) (b : Addr) (o : Obj) : Outcome Unit :=
  let w1 := w.setObj b { o with count := wrap32 (o.count - 1) }
  if wrap32 (o.count - 1) = 0 then buffer.push w1 o.cache b
  else .ok w1 ()

/-- Source `func (b *sDirect) Decrement()`: the count is decremented atomically and
`push` is called when the new value is zero. -/
def sDirect.Decrement (w : World) (b : Addr) (o : Obj) : Outcome Unit :=
  let w1 := w.setObj b { o with count := wrap32 (o.count - 1) }
  if wrap32 (o.count - 1) = 0 then buffer.push w1 o.cache b
  else .ok w1 ()

/-- Interface call `b.Decrement()`. -/
def ICache.Decrement (w : World) (b : Addr) : Outcome Unit :=
  match w.objs[b]? with
  | none => .fault w .nilDeref
  | some o =>
    match o.kind with
    | .chached => chached.Decrement w b o
    | .sDirect => sDirect.Decrement w b o

/-- The shard index computed by `New` and by `push`: the advanced cursor reduced by
Go's truncated remainder. -/
def shardIndex (cursor num : Int) : Int := Int.tmod (wrap32 (cursor + 1)) num

/-- Source `func (cache *buffer) New() ICache`.  The read cursor is advanced
atomically; the `select` receives the oldest queued buffer of the selected channel
and increments it, or, when the channel is empty, allocates a `chached` with count
one and grows its storage by the size hint. -/
def buffer.New (w : World) (m : Addr) : Outcome Addr :=
  match w.mgrs[m]? with
  | none => .fault w .nilDeref
  | some c =>
    let w1 := w.setMgr m { c with read := wrap32 (c.read + 1) }
    if c.num = 0 then .fault w1 .divideByZero
    else if shardIndex c.read c.num < 0 then .fault w1 .indexOutOfRange
    else
      match c.buffers[(shardIndex c.read c.num).toNat]? with
      | none => .fault w1 .indexOutOfRange
      | some ch =>
        match ch.queue with
        | b :: rest =>
          let w2 := w1.setMgr m
            { c with read := wrap32 (c.read + 1),
                     buffers := c.buffers.set (shardIndex c.read c.num).toNat
                                  { ch with queue := rest } }
          match ICache.Incement w2 b with
          | .fault w3 f => .fault w3 f
          | .ok w3 _ => .ok w3 b
        | [] =>
          let o : Obj := { kind := .chached, buf := BytesBuffer.zero, count := 1, cache := m }
          match (chached.Get o).Grow c.size with
          | .error f => .fault w1 f
          | .ok g => .ok { w1 with objs := w1.objs ++ [{ o with buf := g }] } w1.objs.length

/-- Source `func (cache *buffer) Wrap(data []byte) ICache`: the receiver is stored,
never dereferenced. -/
def buffer.Wrap (w : World) (m : Addr) (data : List Byte) : Outcome Addr :=
  .ok { w with objs := w.objs ++
          [{ kind := .sDirect, buf := BytesBuffer.NewBuffer data, count := 1, cache := m }] }
    w.objs.length

/-! ## The guarded read helper -/

/-- The deferred closure of `ReadAll`: `e := recover()`; nothing happens when no panic
is in flight, otherwise the panic value is logged.  Calling `recover` ends the
panic. -/
def ReadAll.deferred (w : World) (panicking : Option Fault) : World :=
  match panicking with
  | none => w
  | some f => { w with logged := w.logged ++ [.recovered f] }

/-- Source `func ReadAll(dest ICache, r io.Reader) error`.  When `ReadFrom` returns,
a non-nil error is logged and `err` is returned after the deferred closure ran.
When `ReadFrom` panics, the deferred closure recovers and the unnamed result keeps
its zero value, nil. -/
def ReadAll (w : World) (dest : Addr) (r : List ReadCall) : World × Option GoError :=
  match ICache.ReadFrom w dest r with
  | .ok w1 (_, err) =>
    match err with
    | some e => (ReadAll.deferred { w1 with logged := w1.logged ++ [.error e] } none, some e)
    | none => (ReadAll.deferred w1 none, none)
  | .fault w1 f => (ReadAll.deferred w1 (some f), none)

/-! ## Sequences of calls -/

/-- A call made by a client of the package. -/
inductive Op where
  | New (m : Addr)
  | Wrap (m : Addr) (data : List Byte)
  | Incement (b : Addr)
  | Decrement (b : Addr)
  | Reset (b : Addr)
  | Write (b : Addr) (p : List Byte)
  deriving DecidableEq

/-- The state after one call; a call that panics leaves the state of the panic. -/
def step (w : World) : Op → World
  | .New m => (buffer.New w m).world
  | .Wrap m data => (buffer.Wrap w m data).world
  | .Incement b => (ICache.Incement w b).world
  | .Decrement b => (ICache.Decrement w b).world
  | .Reset b => (ICache.Reset w b).world
  | .Write b p => (ICache.Write w b p).world

/-- The state after a sequence of calls, executed one after the other. -/
def run (w : World) (ops : List Op) : World := ops.foldl step w

/-! ## Concurrent `Decrement` calls -/

/-- A goroutine executing `b.Decrement()`: before its `atomic.AddInt32`, after it
with the value the add returned, or finished (keeping that value). -/
inductive Thread where
  | start
  | added (v : Int)
  | done (v : Int)
  deriving DecidableEq

/-- Goroutines calling `Decrement` on one buffer, over the shared state. -/
structure Conc where
  world : World
  threads : List Thread
  deriving DecidableEq

/-- The next step of goroutine `i`.  The atomic add is one indivisible step that
returns the new value; the comparison with zero and the call of `push` form the
second step.  A goroutine that has finished, or does not exist, does not move. -/
def Conc.step (s : Conc) (b : Addr) (i : Nat) : Conc :=
  match s.threads[i]? with
  | some .start =>
    match s.world.objs[b]? with
    | none => s
    | some o =>
      { world := s.world.setObj b { o with count := wrap32 (o.count - 1) },
        threads := s.threads.set i (.added (wrap32 (o.count - 1))) }
  | some (.added v) =>
    match s.world.objs[b]? with
    | none => s
    | some o =>
      if v = 0 then
        { world := (buffer.push s.world o.cache b).world, threads := s.threads.set i (.done v) }
      else { s with threads := s.threads.set i (.done v) }
  | _ => s

/-- The state after the goroutines moved in the order of the schedule. -/
def Conc.run (s : Conc) (b : Addr) (sched : List Nat) : Conc :=
  sched.foldl (fun t i => t.step b i) s

/-- A goroutine that observed the value zero from its atomic add. -/
def Thread.sawZero : Thread → Bool
  | .added v => decide (v = 0)
  | .done v => decide (v = 0)
  | .start => false

/-- A goroutine that has finished. -/
def Thread.finished : Thread → Bool
  | .done _ => true
  | _ => false

/-- How far a goroutine has got in its call: 0 before the atomic add, 1 after it, 2
when the call has finished. -/
def Thread.stage : Thread → Nat
  | .start => 0
  | .added _ => 1
  | .done _ => 2

/-- A goroutine that has not yet executed its atomic add. -/
def Thread.waiting : Thread → Bool
  | .start => true
  | _ => false

/-- A goroutine that observed zero and has finished: it has called `push`. -/
def Thread.released : Thread → Bool
  | .done v => decide (v = 0)
  | _ => false

/-- The invariant of concurrent `Decrement` calls on the buffer `b` of manager `m`,
started in the state `w`: the count is the number of goroutines still waiting, a
goroutine observed zero exactly when none is waiting any more, and `push` has been
called once for each goroutine that observed zero and finished. -/
def ConcInv (w : World) (b m : Addr) (s : Conc) : Prop :=
  (∃ o, s.world.objs[b]? = some o ∧ o.count = ((s.threads.countP Thread.waiting : Nat) : Int) ∧
    o.cache = m) ∧
  s.threads.countP Thread.sawZero = (if s.threads.countP Thread.waiting = 0 then 1 else 0) ∧
  s.world.pushes = w.pushes ++ List.replicate (s.threads.countP Thread.released) (m, b) ∧
  (s.threads.length : Int) ≤ 2147483647

/-! ## State predicates -/

/-- The buffer at `b` has the given kind, manager pointer and count; for a pooled
buffer the manager exists and has a nonzero shard count. -/
def Tracks (w : World) (b : Addr) (k : Kind) (m : Addr) (c : Int) : Prop :=
  ∃ o, w.objs[b]? = some o ∧ o.kind = k ∧ o.cache = m ∧ o.count = c ∧
    (k = .chached → ∃ cm, w.mgrs[m]? = some cm ∧ cm.num ≠ 0)

/-- The address `a` waits in some channel of some manager. -/
def Queued (w : World) (a : Addr) : Prop :=
  ∃ c ∈ w.mgrs, ∃ ch ∈ c.buffers, a ∈ ch.queue

/-- No wrapped buffer waits in a channel: every queued address holds a pooled buffer. -/
def NoWrappedQueued (w : World) : Prop :=
  ∀ a, Queued w a → ∃ o, w.objs[a]? = some o ∧ o.kind = .chached

/-- Every channel of every manager is empty. -/
def QueuesEmpty (w : World) : Prop :=
  ∀ c ∈ w.mgrs, ∀ ch ∈ c.buffers, ch.queue = []

/-- Every object of the first heap is still there in the second, with its dynamic
type. -/
def KindsKept (xs ys : List Obj) : Prop :=
  ∀ (a : Addr) (o : Obj), xs[a]? = some o → ∃ o' : Obj, ys[a]? = some o' ∧ o'.kind = o.kind

/-- The calls of `n` holders sharing the buffer `b` one after the other: `n` calls of
`Incement` followed by `n` calls of `Decrement`. -/
def balanced (n : Nat) (b : Addr) : List Op :=
  List.replicate n (.Incement b) ++ List.replicate n (.Decrement b)

/-! ## Example states -/

/-- A manager for two processors, eight buffers, size hint 64, at address 0. -/
def exManager : World := (NewCache World.empty 2 8 64).world

/-- The example manager after one `New`: a pooled buffer with count one at address 0. -/
def exPooled : World := (buffer.New exManager 0).world

/-- The example manager after one `Wrap`: a wrapped buffer with count one at address 0. -/
def exWrapped : World := (buffer.Wrap exManager 0 [1, 2, 3]).world

/-- The example pooled buffer after its holder wrote two bytes. -/
def exWritten : World := (ICache.Write exPooled 0 [7, 8]).world

/-- The example pooled buffer shared by three holders: count 3. -/
def exShared : World := run exPooled [.Incement 0, .Incement 0]

/-- The example manager built with a negative size hint. -/
def exNegative : World := (NewCache World.empty 2 8 (-1)).world

/-- A state in which shard 1 of a manager on two processors holds two idle pooled
buffers, the one at address 0 (count 0, the head) and the one at address 1. -/
def exQueued : World :=
  { objs := [⟨.chached, ⟨[], 64⟩, 0, 0⟩, ⟨.chached, ⟨[], 64⟩, 0, 0⟩],
    mgrs := [⟨[⟨[], 4⟩, ⟨[0, 1], 4⟩], 64, 2, 0, 1⟩],
    logged := [], pushes := [] }

/-- A manager on two processors whose two cursors hold the greatest int32 value, with
one pooled buffer of count one. -/
def exCursorMax : World :=
  { objs := [⟨.chached, ⟨[], 64⟩, 1, 0⟩],
    mgrs := [⟨[⟨[], 4⟩, ⟨[], 4⟩], 64, 2, 2147483647, 2147483647⟩],
    logged := [], pushes := [] }

/-- The example manager built with the size hint 2^62. -/
def exHugeHint : World := (NewCache World.empty 2 8 4611686018427387904).world

/-- A manager on two processors whose read cursor is -2. -/
def exCursorNegative : World :=
  { objs := [], mgrs := [⟨[⟨[], 4⟩, ⟨[], 4⟩], 64, 2, -2, 1⟩], logged := [], pushes := [] }

end Cache

namespace Cache

/-! ## int32 arithmetic -/

theorem wrap32_of_isInt32 {x : Int} (h : isInt32 x) : wrap32 x = x := by
  unfold isInt32 at h
  unfold wrap32
  omega

theorem isInt32_wrap32 (x : Int) : isInt32 (wrap32 x) := by
  unfold isInt32 wrap32
  omega

theorem wrap32_add_left (x y : Int) : wrap32 (wrap32 x + y) = wrap32 (x + y) := by
  unfold wrap32
  omega

theorem wrap32_pred_eq_zero {c : Int} (h : isInt32 c) : wrap32 (c - 1) = 0 ↔ c = 1 := by
  unfold isInt32 at h
  unfold wrap32
  omega

theorem wrap32_pred {c : Int} (h : isInt32 c) (hmin : c ≠ -2147483648) :
    wrap32 (c - 1) = c - 1 := by
  unfold isInt32 at h
  unfold wrap32
  omega

/-! ## Heap updates -/

@[simp] theorem setObj_mgrs (w : World) (b : Addr) (o : Obj) : (w.setObj b o).mgrs = w.mgrs := rfl

@[simp] theorem setObj_pushes (w : World) (b : Addr) (o : Obj) :
    (w.setObj b o).pushes = w.pushes := rfl

@[simp] theorem setObj_logged (w : World) (b : Addr) (o : Obj) :
    (w.setObj b o).logged = w.logged := rfl

@[simp] theorem setObj_objs (w : World) (b : Addr) (o : Obj) :
    (w.setObj b o).objs = w.objs.set b o := rfl

@[simp] theorem setMgr_objs (w : World) (m : Addr) (c : buffer) : (w.setMgr m c).objs = w.objs := rfl

@[simp] theorem setMgr_pushes (w : World) (m : Addr) (c : buffer) :
    (w.setMgr m c).pushes = w.pushes := rfl

@[simp] theorem setMgr_logged (w : World) (m : Addr) (c : buffer) :
    (w.setMgr m c).logged = w.logged := rfl

@[simp] theorem setMgr_mgrs (w : World) (m : Addr) (c : buffer) :
    (w.setMgr m c).mgrs = w.mgrs.set m c := rfl

theorem getElem?_set_same {α : Type} {l : List α} {i : Nat} {a x : α} (h : l[i]? = some a) :
    (l.set i x)[i]? = some x := by
  have hi : i < l.length := by
    rcases List.getElem?_eq_some.mp h with ⟨hi, _⟩
    exact hi
  simp [List.getElem?_set_self hi]

/-! ## What `push` does -/

/-- The release of a wrapped buffer: only its content is reset. -/
theorem push_sDirect (w : World) (m b : Addr) (o : Obj) (hb : w.objs[b]? = some o)
    (hk : o.kind = .sDirect) :
    buffer.push w m b =
      .ok { w with objs := w.objs.set b { o with buf := o.buf.Reset },
                   pushes := w.pushes ++ [(m, b)] } () := by
  simp [buffer.push, hb, hk, ICache.Reset, sDirect.Reset, World.setObj]

/-- The release of a pooled buffer in a manager with shards: the content is reset and
the write cursor advances; no channel changes. -/
theorem push_chached (w : World) (m b : Addr) (o : Obj) (c : buffer)
    (hb : w.objs[b]? = some o) (hk : o.kind = .chached) (hm : w.mgrs[m]? = some c)
    (hn : c.num ≠ 0) :
    buffer.push w m b =
      .ok { w with objs := w.objs.set b { o with buf := o.buf.Reset },
                   mgrs := w.mgrs.set m { c with write := wrap32 (c.write + 1) },
                   pushes := w.pushes ++ [(m, b)] } () := by
  simp [buffer.push, hb, hk, ICache.Reset, chached.Reset, World.setObj, World.setMgr, hm, hn]

/-- Whatever `push` does, it records its call and keeps the count, the kind and the
manager pointer of the buffer. -/
theorem push_keeps (w : World) (m b : Addr) (o : Obj) (hb : w.objs[b]? = some o) :
    (buffer.push w m b).world.pushes = w.pushes ++ [(m, b)] ∧
    (buffer.push w m b).world.objs = w.objs.set b { o with buf := o.buf.Reset } := by
  obtain ⟨k, bb, cnt, ca⟩ := o
  unfold buffer.push
  cases k
  · cases hm : w.mgrs[m]? with
    | none => simp [hb, ICache.Reset, chached.Reset, World.setObj, hm, Outcome.world]
    | some c =>
      by_cases hn : c.num = 0 <;>
        simp [hb, ICache.Reset, chached.Reset, World.setObj, hm, hn, Outcome.world, World.setMgr]
  · simp [hb, ICache.Reset, sDirect.Reset, World.setObj, Outcome.world]


/-! ## Decrement -/

theorem Decrement_unfold (w : World) (b : Addr) (o : Obj) (hb : w.objs[b]? = some o) :
    ICache.Decrement w b =
      if wrap32 (o.count - 1) = 0 then
        buffer.push (w.setObj b { o with count := wrap32 (o.count - 1) }) o.cache b
      else .ok (w.setObj b { o with count := wrap32 (o.count - 1) }) () := by
  obtain ⟨k, bb, cnt, ca⟩ := o
  unfold ICache.Decrement
  cases k <;> simp [hb, chached.Decrement, sDirect.Decrement]

/-- C1: `Decrement` on a pooled or wrapped buffer with count `c` stores `c - 1` (the
int32 subtraction of the atomic add: the integer `c - 1` for every `c` above the
least int32 value) and calls `push` exactly when `c = 1`; when `c` is not 1 the call
returns and only the count of this buffer has changed: its content, every other
object, and the managers with their channels and cursors are as before. -/
theorem Decrement_count_and_release (w : World) (b : Addr) (o : Obj)
    (hb : w.objs[b]? = some o) (hc : isInt32 o.count) :
    (ICache.Decrement w b =
      if o.count = 1 then buffer.push (w.setObj b { o with count := 0 }) o.cache b
      else .ok (w.setObj b { o with count := wrap32 (o.count - 1) }) ()) ∧
    (∃ o', (ICache.Decrement w b).world.objs[b]? = some o' ∧
      o'.count = wrap32 (o.count - 1) ∧
      (o.count ≠ -2147483648 → o'.count = o.count - 1)) ∧
    ((ICache.Decrement w b).world.pushes =
      if o.count = 1 then w.pushes ++ [(o.cache, b)] else w.pushes) ∧
    (o.count ≠ 1 →
      (ICache.Decrement w b).world.mgrs = w.mgrs ∧
      (ICache.Decrement w b).world.objs = w.objs.set b { o with count := wrap32 (o.count - 1) } ∧
      (∃ o', (ICache.Decrement w b).world.objs[b]? = some o' ∧ o'.buf = o.buf) ∧
      (∀ a, a ≠ b → (ICache.Decrement w b).world.objs[a]? = w.objs[a]?)) := by
  have hz := wrap32_pred_eq_zero hc
  have hset : ∀ x : Obj, (w.objs.set b x)[b]? = some x := fun x => getElem?_set_same hb
  rw [Decrement_unfold w b o hb]
  by_cases h1 : o.count = 1
  · have h0 : wrap32 (o.count - 1) = 0 := hz.mpr h1
    have hk := push_keeps (w.setObj b { o with count := 0 }) o.cache b { o with count := 0 }
      (by simpa using hset _)
    rw [h0, if_pos rfl, if_pos h1, if_pos h1]
    refine ⟨rfl, ⟨{ o with count := 0, buf := o.buf.Reset }, ?_, rfl, ?_⟩, ?_, ?_⟩
    · rw [hk.2]
      simp only [setObj_objs, List.set_set]
      exact hset _
    · intro _; rw [h1]; rfl
    · rw [hk.1]; rfl
    · intro h; exact absurd h1 h
  · have h0 : ¬ wrap32 (o.count - 1) = 0 := fun h => h1 (hz.mp h)
    rw [if_neg h0, if_neg h1, if_neg h1]
    simp only [Outcome.world, setObj_objs, setObj_mgrs, setObj_pushes]
    refine ⟨trivial, ⟨_, hset _, rfl, fun hmin => wrap32_pred hc hmin⟩, trivial, ?_⟩
    intro _
    refine ⟨trivial, trivial, ⟨_, hset _, rfl⟩, ?_⟩
    intro a hab
    exact List.getElem?_set_ne (Ne.symm hab)

/-- C1 at the example pooled buffer (count 1) of the example manager. -/
theorem Decrement_count_and_release_witness :
    exPooled.objs[0]? = some ⟨.chached, ⟨[], 64⟩, 1, 0⟩ ∧ isInt32 1 ∧
    (ICache.Decrement exPooled 0).world.pushes = [(0, 0)] :=
  ⟨by decide, by decide,
    by simpa [exPooled, exManager, NewCache, buffer.New, Outcome.world] using
      (Decrement_count_and_release exPooled 0 ⟨.chached, ⟨[], 64⟩, 1, 0⟩
        (by decide) (by decide)).2.2.1⟩


/-! ## What `New` and `Wrap` do -/

/-- `Grow` on the zero value of `bytes.Buffer`: it returns exactly for a count between
0 and `maxAlloc`. -/
theorem Grow_zero_ok (n : Int) (h0 : 0 ≤ n) (h1 : n ≤ (maxAlloc : Int)) :
    BytesBuffer.zero.Grow n = .ok { buf := [], cap := BytesBuffer.zero.growCap n.toNat } := by
  unfold BytesBuffer.Grow BytesBuffer.grow
  rw [if_neg (by omega), if_neg]
  · rfl
  · simp only [BytesBuffer.zero, List.length_nil, Nat.sub_zero, Nat.zero_add, not_and, not_lt]
    intro _
    omega

theorem Grow_zero_inv (n : Int) (g : BytesBuffer) (h : BytesBuffer.zero.Grow n = .ok g) :
    0 ≤ n ∧ n ≤ (maxAlloc : Int) ∧
    g = { buf := [], cap := BytesBuffer.zero.growCap n.toNat } := by
  unfold BytesBuffer.Grow BytesBuffer.grow at h
  by_cases h0 : n < 0
  · rw [if_pos h0] at h; cases h
  · rw [if_neg h0] at h
    by_cases h1 : ¬ n.toNat ≤ BytesBuffer.zero.cap - BytesBuffer.zero.buf.length ∧
        maxAlloc < BytesBuffer.zero.buf.length + n.toNat
    · rw [if_pos h1] at h; cases h
    · rw [if_neg h1] at h
      injection h with h
      refine ⟨not_lt.mp h0, ?_, h.symm⟩
      simp only [BytesBuffer.zero, List.length_nil, Nat.sub_zero, Nat.zero_add, not_and,
        not_lt] at h1
      unfold maxAlloc at h1 ⊢
      omega

theorem Grow_zero_tooLarge (n : Int) (h : (maxAlloc : Int) < n) :
    BytesBuffer.zero.Grow n = .error .tooLarge := by
  unfold BytesBuffer.Grow BytesBuffer.grow
  rw [if_neg (by unfold maxAlloc at h; omega), if_pos]
  simp only [BytesBuffer.zero, List.length_nil, Nat.sub_zero, Nat.zero_add]
  unfold maxAlloc at h ⊢
  omega

/-- The allocation branch of `New`: the selected channel exists and is empty, the
size hint is not negative and not above `maxAlloc`. -/
theorem New_fresh (w : World) (m : Addr) (c : buffer) (ch : Chan)
    (hm : w.mgrs[m]? = some c) (hn : c.num ≠ 0) (hidx : 0 ≤ shardIndex c.read c.num)
    (hch : c.buffers[(shardIndex c.read c.num).toNat]? = some ch) (hq : ch.queue = [])
    (hs : 0 ≤ c.size) (hmax : c.size ≤ (maxAlloc : Int)) :
    buffer.New w m =
      .ok { w with mgrs := w.mgrs.set m { c with read := wrap32 (c.read + 1) },
                   objs := w.objs ++ [{ kind := .chached,
                                        buf := { buf := [], cap := BytesBuffer.zero.growCap c.size.toNat },
                                        count := 1, cache := m }] }
        w.objs.length := by
  unfold buffer.New
  simp only [hm, hn, if_false, not_lt.mpr hidx, hch, hq, chached.Get, Grow_zero_ok _ hs hmax]
  rfl

/-- A `New` that returns either allocated at the first free address, or received an
existing buffer from a channel; the manager exists and has a nonzero shard count. -/
theorem New_ok_cases (w w1 : World) (m b : Addr) (h : buffer.New w m = .ok w1 b) :
    ∃ c, w.mgrs[m]? = some c ∧ c.num ≠ 0 ∧
      ((b = w.objs.length ∧ 0 ≤ c.size ∧
        w1 = { w with mgrs := w.mgrs.set m { c with read := wrap32 (c.read + 1) },
                      objs := w.objs ++ [{ kind := .chached,
                                           buf := { buf := [], cap := BytesBuffer.zero.growCap c.size.toNat },
                                           count := 1, cache := m }] }) ∨
       (b < w.objs.length ∧ ∃ ch rest, 0 ≤ shardIndex c.read c.num ∧
          c.buffers[(shardIndex c.read c.num).toNat]? = some ch ∧ ch.queue = b :: rest)) := by
  unfold buffer.New at h
  cases hm : w.mgrs[m]? with
  | none => simp [hm] at h
  | some c =>
    simp only [hm] at h
    refine ⟨c, rfl, ?_⟩
    by_cases hn : c.num = 0
    · simp [hn] at h
    · simp only [hn, if_false] at h
      refine ⟨hn, ?_⟩
      by_cases hidx : shardIndex c.read c.num < 0
      · simp [hidx] at h
      · simp only [hidx, if_false] at h
        cases hch : c.buffers[(shardIndex c.read c.num).toNat]? with
        | none => simp [hch] at h
        | some ch =>
          simp only [hch] at h
          cases hq : ch.queue with
          | nil =>
            simp only [hq, chached.Get] at h
            cases hg : BytesBuffer.zero.Grow c.size with
            | error f => simp [hg] at h
            | ok g =>
              obtain ⟨h0, _, hgeq⟩ := Grow_zero_inv _ _ hg
              simp only [hg] at h
              injection h with h1 h2
              left
              refine ⟨?_, h0, ?_⟩
              · rw [← h2]; rfl
              · rw [← h1, hgeq]; rfl
          | cons a rest =>
            simp only [hq, ICache.Incement] at h
            right
            cases ho : w.objs[a]? with
            | none => simp [ho, World.setMgr] at h
            | some o =>
              have hlt : a < w.objs.length := (List.getElem?_eq_some.mp ho).1
              obtain ⟨k, bb, cnt, ca⟩ := o
              cases k <;> simp [ho, World.setMgr] at h <;>
                exact ⟨h.2 ▸ hlt, ch, rest, not_lt.mp hidx, rfl, h.2 ▸ hq⟩


/-! ## Balanced `Incement` and `Decrement` calls -/

theorem run_append (w : World) (xs ys : List Op) : run w (xs ++ ys) = run (run w xs) ys := by
  simp [run, List.foldl_append]

theorem run_cons (w : World) (x : Op) (xs : List Op) : run w (x :: xs) = run (step w x) xs := rfl

theorem Incement_tracks (w : World) (b : Addr) (k : Kind) (m : Addr) (c : Int)
    (h : Tracks w b k m c) : Tracks (step w (.Incement b)) b k m (wrap32 (c + 1)) := by
  obtain ⟨o, hb, hk, hm, hc, hmgr⟩ := h
  obtain ⟨ko, bb, cnt, ca⟩ := o
  simp only at hk hm hc
  subst hk hm hc
  refine ⟨⟨ko, bb, wrap32 (cnt + 1), ca⟩, ?_, rfl, rfl, rfl, ?_⟩
  · cases ko <;>
      simp [step, ICache.Incement, hb, Outcome.world, chached.Incement, sDirect.Incement,
        getElem?_set_same hb]
  · intro hk
    obtain ⟨cm, hcm, hnum⟩ := hmgr hk
    refine ⟨cm, ?_, hnum⟩
    cases ko <;> simpa [step, ICache.Incement, hb, Outcome.world] using hcm

theorem Decrement_tracks (w : World) (b : Addr) (k : Kind) (m : Addr) (c : Int)
    (h : Tracks w b k m c) :
    ∃ w1, ICache.Decrement w b = .ok w1 () ∧ Tracks w1 b k m (wrap32 (c - 1)) ∧
      w1.pushes = if wrap32 (c - 1) = 0 then w.pushes ++ [(m, b)] else w.pushes := by
  obtain ⟨o, hb, hk, hm, hc, hmgr⟩ := h
  obtain ⟨ko, bb, cnt, ca⟩ := o
  simp only at hk hm hc
  subst hk hm hc
  have hset : ∀ x : Obj, (w.objs.set b x)[b]? = some x := fun x => getElem?_set_same hb
  rw [Decrement_unfold w b _ hb]
  by_cases h0 : wrap32 (cnt - 1) = 0
  · simp only [h0, if_true]
    cases ko with
    | sDirect =>
      rw [push_sDirect _ ca b ⟨.sDirect, bb, 0, ca⟩ (by simpa using hset _) rfl]
      refine ⟨_, rfl, ⟨⟨.sDirect, bb.Reset, 0, ca⟩, ?_, rfl, rfl, rfl, ?_⟩, ?_⟩
      · simp only [setObj_objs, List.set_set]; exact hset _
      · intro hk; cases hk
      · simp
    | chached =>
      obtain ⟨cm, hcm, hnum⟩ := hmgr rfl
      rw [push_chached _ ca b ⟨.chached, bb, 0, ca⟩ cm (by simpa using hset _) rfl
        (by simpa using hcm) hnum]
      refine ⟨_, rfl, ⟨⟨.chached, bb.Reset, 0, ca⟩, ?_, rfl, rfl, rfl, ?_⟩, ?_⟩
      · simp only [setObj_objs, List.set_set]; exact hset _
      · intro _
        exact ⟨{ cm with write := wrap32 (cm.write + 1) }, getElem?_set_same hcm, hnum⟩
      · simp
  · simp only [h0, if_false]
    refine ⟨_, rfl, ⟨⟨ko, bb, wrap32 (cnt - 1), ca⟩, ?_, rfl, rfl, rfl, ?_⟩, ?_⟩
    · simpa using hset _
    · simpa using hmgr
    · simp

theorem run_Incement_tracks (b : Addr) (k : Kind) (m : Addr) (n : Nat) :
    ∀ (w : World) (x : Int), Tracks w b k m (wrap32 x) →
      Tracks (run w (List.replicate n (.Incement b))) b k m (wrap32 (x + n)) := by
  induction n with
  | zero => intro w x h; simpa [run] using h
  | succ n ih =>
    intro w x h
    rw [List.replicate_succ, run_cons]
    have h1 := Incement_tracks w b k m _ h
    rw [wrap32_add_left] at h1
    have h2 := ih _ _ h1
    have e : x + 1 + (n : Int) = x + ((n + 1 : Nat) : Int) := by push_cast; ring
    rwa [e] at h2

theorem run_Decrement_tracks (b : Addr) (k : Kind) (m : Addr) (n : Nat) :
    ∀ (w : World) (x : Int), Tracks w b k m (wrap32 x) →
      Tracks (run w (List.replicate n (.Decrement b))) b k m (wrap32 (x - n)) := by
  induction n with
  | zero => intro w x h; simpa [run] using h
  | succ n ih =>
    intro w x h
    rw [List.replicate_succ, run_cons]
    obtain ⟨w1, hw1, h1, _⟩ := Decrement_tracks w b k m _ h
    have e0 : wrap32 (wrap32 x - 1) = wrap32 (x - 1) := by
      have := wrap32_add_left x (-1)
      simpa [sub_eq_add_neg] using this
    rw [e0] at h1
    have hs : step w (.Decrement b) = w1 := by simp [step, hw1, Outcome.world]
    rw [hs]
    have h2 := ih _ _ h1
    have e : x - 1 - (n : Int) = x - ((n + 1 : Nat) : Int) := by push_cast; ring
    rwa [e] at h2

/-- A buffer fresh from `New` or `Wrap` is tracked with count one. -/
theorem fresh_tracks (w w1 : World) (m b : Addr)
    (h : (buffer.New w m = .ok w1 b ∧ b = w.objs.length) ∨
         (∃ data, buffer.Wrap w m data = .ok w1 b)) :
    ∃ k, Tracks w1 b k m 1 := by
  rcases h with ⟨hnew, hb⟩ | ⟨data, hwrap⟩
  · obtain ⟨c, hm, hn, hcase⟩ := New_ok_cases w w1 m b hnew
    rcases hcase with ⟨_, _, hw1⟩ | ⟨hlt, _⟩
    · refine ⟨.chached, ⟨.chached, ⟨[], BytesBuffer.zero.growCap c.size.toNat⟩, 1, m⟩,
        ?_, rfl, rfl, rfl, ?_⟩
      · rw [hw1, hb]; exact List.getElem?_concat_length _ _
      · intro _
        exact ⟨{ c with read := wrap32 (c.read + 1) },
          by rw [hw1]; exact getElem?_set_same hm, hn⟩
    · exact absurd hlt (by rw [hb]; exact lt_irrefl _)
  · unfold buffer.Wrap at hwrap
    injection hwrap with h1 h2
    refine ⟨.sDirect, ⟨.sDirect, BytesBuffer.NewBuffer data, 1, m⟩, ?_, rfl, rfl, rfl, ?_⟩
    · rw [← h1, ← h2]; exact List.getElem?_concat_length _ _
    · intro hk; cases hk


/-- C2 as stated fails for `n = 1` on the example pooled buffer, fresh from `New`
with count 1: after the one `Incement` the count is 2, not 1, before the final (the
only) `Decrement` of the sequence, and that `Decrement` leaves it at 1, not 0, and
does not call `push`. -/
theorem last_balanced_Decrement_keeps_reference :
    (buffer.New exManager 0 = .ok exPooled 0 ∧ 0 = exManager.objs.length) ∧
    (run exPooled (List.replicate 1 (.Incement 0))).objs[0]? =
      some ⟨.chached, ⟨[], 64⟩, 2, 0⟩ ∧
    ICache.Decrement (run exPooled (List.replicate 1 (.Incement 0))) 0 =
      .ok ⟨[⟨.chached, ⟨[], 64⟩, 1, 0⟩], [⟨[⟨[], 4⟩, ⟨[], 4⟩], 64, 2, 1, 1⟩], [], []⟩ () := by
  decide

/-- C2, amended: for a buffer fresh from `New` (allocation branch) or from `Wrap`, and
every `n`, after `n` calls of `Incement` followed by `n` calls of `Decrement` the
count is exactly 1; one further `Decrement`, the final one, which gives up the
reference handed out by `New` or `Wrap`, returns, leaves the count at exactly 0 and
calls `push` for this buffer (sequential execution). -/
theorem Incement_Decrement_balance (w w1 : World) (m b : Addr) (n : Nat)
    (h : (buffer.New w m = .ok w1 b ∧ b = w.objs.length) ∨
         (∃ data, buffer.Wrap w m data = .ok w1 b)) :
    (∃ o, (run w1 (balanced n b)).objs[b]? = some o ∧ o.count = 1) ∧
    (∃ w2, ICache.Decrement (run w1 (balanced n b)) b = .ok w2 () ∧
      (∃ o, w2.objs[b]? = some o ∧ o.count = 0) ∧
      w2.pushes = (run w1 (balanced n b)).pushes ++ [(m, b)]) := by
  obtain ⟨k, hk⟩ := fresh_tracks w w1 m b h
  have h1 : Tracks w1 b k m (wrap32 1) := by simpa [wrap32] using hk
  have h2 := run_Incement_tracks b k m n w1 1 h1
  have h3 := run_Decrement_tracks b k m n _ _ h2
  rw [← run_append] at h3
  have e : wrap32 (1 + (n : Int) - (n : Int)) = 1 := by
    have : (1 : Int) + n - n = 1 := by ring
    rw [this]; simp [wrap32]
  rw [e] at h3
  have h4 : Tracks (run w1 (balanced n b)) b k m 1 := h3
  refine ⟨?_, ?_⟩
  · obtain ⟨o, ho, _, _, hc, _⟩ := h4
    exact ⟨o, ho, hc⟩
  · obtain ⟨w2, hw2, ht, hp⟩ := Decrement_tracks _ b k m 1 h4
    have z : wrap32 (1 - 1) = 0 := by simp [wrap32]
    rw [z] at ht
    rw [z, if_pos rfl] at hp
    obtain ⟨o, ho, _, _, hc, _⟩ := ht
    exact ⟨w2, hw2, ⟨o, ho, hc⟩, hp⟩

/-- C2, amended, at the example manager: a pooled buffer and three further holders. -/
theorem Incement_Decrement_balance_witness :
    (buffer.New exManager 0 = .ok exPooled 0 ∧ 0 = exManager.objs.length) ∧
    (∃ o, (run exPooled (balanced 3 0)).objs[0]? = some o ∧ o.count = 1) ∧
    (∃ w2, ICache.Decrement (run exPooled (balanced 3 0)) 0 = .ok w2 () ∧
      (∃ o, w2.objs[0]? = some o ∧ o.count = 0) ∧
      w2.pushes = (run exPooled (balanced 3 0)).pushes ++ [(0, 0)]) :=
  ⟨⟨by decide, by decide⟩,
    Incement_Decrement_balance exManager exPooled 0 0 3 (Or.inl ⟨by decide, by decide⟩)⟩


/-! ## Allocation by `New` -/

theorem growCap_zero_ge (n : Nat) : n ≤ BytesBuffer.zero.growCap n := by
  unfold BytesBuffer.growCap BytesBuffer.zero
  simp only [List.length_nil, Nat.sub_zero, Nat.le_zero_eq, Nat.zero_add]
  split_ifs with h1
  · omega
  · exact le_refl _

/-- C3 as stated fails for a size hint that the runtime cannot allocate: the example
manager built with the size hint 2^62 has shard count 2 and its selected channel,
index 1, exists and is empty, yet `New` panics with `ErrTooLarge` in `Grow`. -/
theorem New_panics_on_huge_hint :
    (exHugeHint.mgrs[0]? = some ⟨[⟨[], 4⟩, ⟨[], 4⟩], 4611686018427387904, 2, 0, 1⟩ ∧
      (1 : Int) ≤ 2 ∧ (0 : Int) ≤ 4611686018427387904 ∧ shardIndex 0 2 = 1 ∧
      ([⟨[], 4⟩, ⟨[], 4⟩] : List Chan)[1]? = some ⟨[], 4⟩) ∧
    buffer.New exHugeHint 0 =
      .fault ⟨[], [⟨[⟨[], 4⟩, ⟨[], 4⟩], 4611686018427387904, 2, 1, 1⟩], [], []⟩ .tooLarge := by
  decide

/-- C3, amended: in a manager with shard count at least 1 and a size hint between 0
and `maxAlloc`, the largest allocation the runtime accepts, when the channel selected
by the advanced read cursor is empty, `New` returns normally, and what it returns is
a newly allocated pooled buffer: its address was free before, its content is empty,
its capacity is at least the size hint, its count is 1 and it points back to this
manager; the objects that existed are untouched. -/
theorem New_on_empty_shard (w : World) (m : Addr) (c : buffer) (ch : Chan)
    (hm : w.mgrs[m]? = some c) (hn : 1 ≤ c.num) (hs : 0 ≤ c.size)
    (hmax : c.size ≤ (maxAlloc : Int))
    (hidx : 0 ≤ shardIndex c.read c.num)
    (hch : c.buffers[(shardIndex c.read c.num).toNat]? = some ch) (hq : ch.queue = []) :
    ∃ w1 o, buffer.New w m = .ok w1 w.objs.length ∧
      w.objs[w.objs.length]? = none ∧
      w1.objs[w.objs.length]? = some o ∧
      o.kind = .chached ∧ o.buf.Bytes = [] ∧ c.size ≤ (o.buf.cap : Int) ∧
      o.count = 1 ∧ o.cache = m ∧
      (∀ a, a < w.objs.length → w1.objs[a]? = w.objs[a]?) := by
  have hn0 : c.num ≠ 0 := by omega
  refine ⟨_, ⟨.chached, ⟨[], BytesBuffer.zero.growCap c.size.toNat⟩, 1, m⟩,
    New_fresh w m c ch hm hn0 hidx hch hq hs hmax, ?_, ?_, rfl, rfl, ?_, rfl, rfl, ?_⟩
  · simp
  · exact List.getElem?_concat_length _ _
  · have h := growCap_zero_ge c.size.toNat
    have h2 : ((c.size.toNat : Nat) : Int) = c.size := Int.toNat_of_nonneg hs
    show c.size ≤ ((BytesBuffer.zero.growCap c.size.toNat : Nat) : Int)
    omega
  · intro a ha
    exact List.getElem?_append_left ha

/-- C3, amended, at the example manager: the first `New` allocates a buffer of capacity
64. -/
theorem New_on_empty_shard_witness :
    (exManager.mgrs[0]? = some ⟨[⟨[], 4⟩, ⟨[], 4⟩], 64, 2, 0, 1⟩ ∧
      (64 : Int) ≤ (maxAlloc : Int) ∧
      shardIndex 0 2 = 1 ∧ ([⟨[], 4⟩, ⟨[], 4⟩] : List Chan)[1]? = some ⟨[], 4⟩) ∧
    ∃ w1 o, buffer.New exManager 0 = .ok w1 exManager.objs.length ∧
      exManager.objs[exManager.objs.length]? = none ∧
      w1.objs[exManager.objs.length]? = some o ∧
      o.kind = .chached ∧ o.buf.Bytes = [] ∧ (64 : Int) ≤ (o.buf.cap : Int) ∧
      o.count = 1 ∧ o.cache = 0 ∧
      (∀ a, a < exManager.objs.length → w1.objs[a]? = exManager.objs[a]?) :=
  ⟨⟨by decide, by decide, by decide, by decide⟩,
    New_on_empty_shard exManager 0 ⟨[⟨[], 4⟩, ⟨[], 4⟩], 64, 2, 0, 1⟩ ⟨[], 4⟩
      (by decide) (by decide) (by decide) (by decide) (by decide) (by decide) rfl⟩


/-! ## Wrapped buffers -/

/-- C4: for every byte sequence `data`, `Wrap(data)` returns a wrapped buffer with
count 1 whose `Bytes()` is `data`; after `Reset()` on it, `Bytes()` is empty. -/
theorem Wrap_Bytes_Reset (w : World) (m : Addr) (data : List Byte) :
    ∃ w1 b o, buffer.Wrap w m data = .ok w1 b ∧
      w1.objs[b]? = some o ∧ o.kind = .sDirect ∧ o.count = 1 ∧
      ICache.Bytes w1 b = .ok w1 data ∧
      ∃ w2, ICache.Reset w1 b = .ok w2 () ∧ ICache.Bytes w2 b = .ok w2 [] := by
  have hb : (w.objs ++ [(⟨.sDirect, BytesBuffer.NewBuffer data, 1, m⟩ : Obj)])[w.objs.length]? =
      some ⟨.sDirect, BytesBuffer.NewBuffer data, 1, m⟩ := List.getElem?_concat_length _ _
  refine ⟨{ w with objs := w.objs ++ [⟨.sDirect, BytesBuffer.NewBuffer data, 1, m⟩] },
    w.objs.length, ⟨.sDirect, BytesBuffer.NewBuffer data, 1, m⟩, rfl, hb, rfl, rfl, ?_, ?_⟩
  · simp only [ICache.Bytes, hb]
    rfl
  · refine ⟨World.setObj { w with objs := w.objs ++ [⟨.sDirect, BytesBuffer.NewBuffer data, 1, m⟩] }
      w.objs.length (sDirect.Reset ⟨.sDirect, BytesBuffer.NewBuffer data, 1, m⟩), ?_, ?_⟩
    · simp only [ICache.Reset, hb]
    · simp only [ICache.Bytes, setObj_objs, getElem?_set_same hb]
      rfl


/-! ## Frame properties of the calls -/

theorem kindsKept_refl (xs : List Obj) : KindsKept xs xs := fun _ o h => ⟨o, h, rfl⟩

theorem kindsKept_trans {xs ys zs : List Obj} (h1 : KindsKept xs ys) (h2 : KindsKept ys zs) :
    KindsKept xs zs := by
  intro a o h
  obtain ⟨o1, ho1, hk1⟩ := h1 a o h
  obtain ⟨o2, ho2, hk2⟩ := h2 a o1 ho1
  exact ⟨o2, ho2, hk2.trans hk1⟩

theorem kindsKept_set {xs : List Obj} {b : Addr} {o o' : Obj} (hb : xs[b]? = some o)
    (hk : o'.kind = o.kind) : KindsKept xs (xs.set b o') := by
  intro a x hx
  by_cases hab : b = a
  · subst hab
    rw [hb] at hx
    injection hx with hx
    exact ⟨o', getElem?_set_same hb, hx ▸ hk⟩
  · exact ⟨x, by rw [List.getElem?_set_ne hab]; exact hx, rfl⟩

theorem kindsKept_append (xs ys : List Obj) : KindsKept xs (xs ++ ys) := by
  intro a o h
  have hlt : a < xs.length := (List.getElem?_eq_some.mp h).1
  exact ⟨o, by rw [List.getElem?_append_left hlt]; exact h, rfl⟩

theorem queued_of_mgrs_eq {w w1 : World} (h : w1.mgrs = w.mgrs) (a : Addr)
    (hq : Queued w1 a) : Queued w a := by
  unfold Queued at hq ⊢
  rwa [h] at hq

theorem queued_of_mgrs_set {w w1 : World} {m : Addr} {c c1 : buffer}
    (hm : w.mgrs[m]? = some c) (h : w1.mgrs = w.mgrs.set m c1)
    (hsub : ∀ ch1 ∈ c1.buffers, ∀ a ∈ ch1.queue, ∃ ch ∈ c.buffers, a ∈ ch.queue)
    (a : Addr) (hq : Queued w1 a) : Queued w a := by
  obtain ⟨c2, hc2, ch2, hch2, ha⟩ := hq
  rw [h] at hc2
  have hc : c ∈ w.mgrs := List.getElem?_mem hm
  rcases List.mem_or_eq_of_mem_set hc2 with hin | heq
  · exact ⟨c2, hin, ch2, hch2, ha⟩
  · subst heq
    obtain ⟨ch, hch, hach⟩ := hsub ch2 hch2 a ha
    exact ⟨c, hc, ch, hch, hach⟩

/-- Calls that touch one object only: `Incement`. -/
theorem Incement_frame (w : World) (b : Addr) :
    (ICache.Incement w b).world.mgrs = w.mgrs ∧
    KindsKept w.objs (ICache.Incement w b).world.objs := by
  unfold ICache.Incement
  cases hb : w.objs[b]? with
  | none => exact ⟨rfl, kindsKept_refl _⟩
  | some o =>
    obtain ⟨k, bb, cnt, ca⟩ := o
    cases k <;> exact ⟨rfl, kindsKept_set hb rfl⟩

/-- Calls that touch one object only: `Reset`. -/
theorem Reset_frame (w : World) (b : Addr) :
    (ICache.Reset w b).world.mgrs = w.mgrs ∧
    KindsKept w.objs (ICache.Reset w b).world.objs := by
  unfold ICache.Reset
  cases hb : w.objs[b]? with
  | none => exact ⟨rfl, kindsKept_refl _⟩
  | some o =>
    obtain ⟨k, bb, cnt, ca⟩ := o
    cases k <;> exact ⟨rfl, kindsKept_set hb rfl⟩

/-- Calls that touch one object only: `Write`. -/
theorem Write_frame (w : World) (b : Addr) (p : List Byte) :
    (ICache.Write w b p).world.mgrs = w.mgrs ∧
    KindsKept w.objs (ICache.Write w b p).world.objs := by
  unfold ICache.Write
  cases hb : w.objs[b]? with
  | none => exact ⟨rfl, kindsKept_refl _⟩
  | some o =>
    obtain ⟨k, bb, cnt, ca⟩ := o
    cases k
    · simp only [chached.Write]
      cases hw : bb.Write p with
      | error f => exact ⟨rfl, kindsKept_refl _⟩
      | ok r => exact ⟨rfl, kindsKept_set hb rfl⟩
    · simp only [sDirect.Write]
      cases hw : bb.Write p with
      | error f => exact ⟨rfl, kindsKept_refl _⟩
      | ok r => exact ⟨rfl, kindsKept_set hb rfl⟩

/-- The managers after `push`: untouched, or the write cursor of the manager moved. -/
theorem push_frame (w : World) (m b : Addr) :
    KindsKept w.objs (buffer.push w m b).world.objs ∧
    ((buffer.push w m b).world.mgrs = w.mgrs ∨
      ∃ c, w.mgrs[m]? = some c ∧
        (buffer.push w m b).world.mgrs =
          w.mgrs.set m { c with write := wrap32 (c.write + 1) }) := by
  cases hb : w.objs[b]? with
  | none =>
    simp only [buffer.push, hb]
    exact ⟨kindsKept_refl _, Or.inl rfl⟩
  | some o =>
    have hk := (push_keeps w m b o hb).2
    refine ⟨by rw [hk]; exact kindsKept_set hb rfl, ?_⟩
    obtain ⟨k, bb, cnt, ca⟩ := o
    unfold buffer.push
    cases k
    · cases hm : w.mgrs[m]? with
      | none =>
        left
        simp [hb, ICache.Reset, chached.Reset, World.setObj, hm, Outcome.world]
      | some c =>
        right
        refine ⟨c, rfl, ?_⟩
        by_cases hn : c.num = 0 <;>
          simp [hb, ICache.Reset, chached.Reset, World.setObj, hm, hn, Outcome.world,
            World.setMgr]
    · left
      simp [hb, ICache.Reset, sDirect.Reset, World.setObj, Outcome.world]

/-- The managers after `Decrement`: untouched, or one write cursor moved. -/
theorem Decrement_frame (w : World) (b : Addr) :
    KindsKept w.objs (ICache.Decrement w b).world.objs ∧
    ((ICache.Decrement w b).world.mgrs = w.mgrs ∨
      ∃ m c, w.mgrs[m]? = some c ∧
        (ICache.Decrement w b).world.mgrs =
          w.mgrs.set m { c with write := wrap32 (c.write + 1) }) := by
  cases hb : w.objs[b]? with
  | none =>
    simp only [ICache.Decrement, hb]
    exact ⟨kindsKept_refl _, Or.inl rfl⟩
  | some o =>
    rw [Decrement_unfold w b o hb]
    have hs : KindsKept w.objs (w.setObj b { o with count := wrap32 (o.count - 1) }).objs :=
      kindsKept_set hb rfl
    by_cases h0 : wrap32 (o.count - 1) = 0
    · simp only [h0, if_true]
      obtain ⟨hk, hm⟩ := push_frame (w.setObj b { o with count := 0 }) o.cache b
      rw [h0] at hs
      refine ⟨kindsKept_trans hs hk, ?_⟩
      rcases hm with hm | ⟨c, hc, hm⟩
      · left; rw [hm]; rfl
      · right; exact ⟨o.cache, c, hc, hm⟩
    · simp only [h0, if_false]
      exact ⟨hs, Or.inl rfl⟩


/-- The state in which `New` ends, whether it returns or panics: nothing changed (no
manager at the address), only the read cursor moved (a panic, or the allocation
branch, which also adds the new object), or a queued buffer was received and its
count incremented. -/
theorem New_world_cases (w : World) (m : Addr) :
    (w.mgrs[m]? = none ∧ (buffer.New w m).world = w) ∨
    ∃ c, w.mgrs[m]? = some c ∧
      ((∃ f, buffer.New w m = .fault (w.setMgr m { c with read := wrap32 (c.read + 1) }) f) ∨
       (∃ x, 0 ≤ c.size ∧ c.num ≠ 0 ∧ buffer.New w m =
          .ok { w.setMgr m { c with read := wrap32 (c.read + 1) } with objs := w.objs ++ [x] }
            w.objs.length) ∨
       (∃ ch b rest, c.buffers[(shardIndex c.read c.num).toNat]? = some ch ∧
          ch.queue = b :: rest ∧
          (buffer.New w m).world =
            (ICache.Incement
              (w.setMgr m { c with read := wrap32 (c.read + 1),
                                   buffers := c.buffers.set (shardIndex c.read c.num).toNat
                                     { ch with queue := rest } }) b).world)) := by
  cases hm : w.mgrs[m]? with
  | none => left; simp [buffer.New, hm, Outcome.world]
  | some c =>
    right
    refine ⟨c, rfl, ?_⟩
    unfold buffer.New
    simp only [hm]
    by_cases hn : c.num = 0
    · left; exact ⟨.divideByZero, by simp [hn]⟩
    · simp only [hn, if_false]
      by_cases hidx : shardIndex c.read c.num < 0
      · left; exact ⟨.indexOutOfRange, by simp [hidx]⟩
      · simp only [hidx, if_false]
        cases hch : c.buffers[(shardIndex c.read c.num).toNat]? with
        | none => left; exact ⟨.indexOutOfRange, rfl⟩
        | some ch =>
          simp only []
          cases hq : ch.queue with
          | nil =>
            simp only [chached.Get]
            cases hg : BytesBuffer.zero.Grow c.size with
            | error f => left; exact ⟨f, rfl⟩
            | ok g =>
              right; left
              exact ⟨⟨.chached, g, 1, m⟩, (Grow_zero_inv _ _ hg).1, hn, rfl⟩
          | cons a rest =>
            right; right
            refine ⟨ch, a, rest, rfl, hq, ?_⟩
            simp only [World.setMgr, List.set_set]
            cases hi : ICache.Incement
              { objs := w.objs,
                mgrs := w.mgrs.set m
                  { buffers := c.buffers.set (shardIndex c.read c.num).toNat
                      { queue := rest, cap := ch.cap },
                    size := c.size, num := c.num, read := wrap32 (c.read + 1),
                    write := c.write },
                logged := w.logged, pushes := w.pushes } a <;> simp [Outcome.world]

/-- No call of `New` puts an address into a channel, and it keeps every object. -/
theorem New_frame (w : World) (m : Addr) :
    KindsKept w.objs (buffer.New w m).world.objs ∧
    (∀ a, Queued (buffer.New w m).world a → Queued w a) := by
  rcases New_world_cases w m with ⟨_, h⟩ | ⟨c, hm, ⟨f, h⟩ | ⟨x, _, _, h⟩ | ⟨ch, b, rest, hch, hq, h⟩⟩
  · rw [h]; exact ⟨kindsKept_refl _, fun _ hq => hq⟩
  · rw [h]
    refine ⟨kindsKept_refl _, fun a => queued_of_mgrs_set hm rfl ?_ a⟩
    intro ch1 h1 a ha; exact ⟨ch1, h1, ha⟩
  · rw [h]
    refine ⟨kindsKept_append _ _, fun a => queued_of_mgrs_set hm rfl ?_ a⟩
    intro ch1 h1 a ha; exact ⟨ch1, h1, ha⟩
  · rw [h]
    obtain ⟨hmg, hk⟩ := Incement_frame
      (w.setMgr m { c with read := wrap32 (c.read + 1),
                           buffers := c.buffers.set (shardIndex c.read c.num).toNat
                             { ch with queue := rest } }) b
    refine ⟨hk, fun a => queued_of_mgrs_set hm hmg ?_ a⟩
    intro ch1 h1 a ha
    rcases List.mem_or_eq_of_mem_set h1 with hin | heq
    · exact ⟨ch1, hin, ha⟩
    · subst heq
      exact ⟨ch, List.getElem?_mem hch, by rw [hq]; exact List.mem_cons_of_mem _ ha⟩

/-- No call puts an address into a channel. -/
theorem step_queued (w : World) (op : Op) (a : Addr) (h : Queued (step w op) a) :
    Queued w a := by
  cases op with
  | New m => exact (New_frame w m).2 a h
  | Wrap m data => exact queued_of_mgrs_eq rfl a h
  | Incement b => exact queued_of_mgrs_eq (Incement_frame w b).1 a h
  | Reset b => exact queued_of_mgrs_eq (Reset_frame w b).1 a h
  | Write b p => exact queued_of_mgrs_eq (Write_frame w b p).1 a h
  | Decrement b =>
    rcases (Decrement_frame w b).2 with hm | ⟨m, c, hc, hm⟩
    · exact queued_of_mgrs_eq hm a h
    · refine queued_of_mgrs_set hc hm ?_ a h
      intro ch1 h1 a ha; exact ⟨ch1, h1, ha⟩

/-- Every call keeps every object and its dynamic type. -/
theorem step_kinds (w : World) (op : Op) : KindsKept w.objs (step w op).objs := by
  cases op with
  | New m => exact (New_frame w m).1
  | Wrap m data => exact kindsKept_append _ _
  | Incement b => exact (Incement_frame w b).2
  | Reset b => exact (Reset_frame w b).2
  | Write b p => exact (Write_frame w b p).2
  | Decrement b => exact (Decrement_frame w b).1

theorem run_queued (ops : List Op) : ∀ (w : World) (a : Addr), Queued (run w ops) a → Queued w a := by
  induction ops with
  | nil => intro w a h; exact h
  | cons op ops ih =>
    intro w a h
    exact step_queued w op a (ih (step w op) a h)

theorem run_kinds (ops : List Op) : ∀ w : World, KindsKept w.objs (run w ops).objs := by
  induction ops with
  | nil => intro w; exact kindsKept_refl _
  | cons op ops ih =>
    intro w
    exact kindsKept_trans (step_kinds w op) (ih (step w op))

theorem run_noWrappedQueued (w : World) (ops : List Op) (h : NoWrappedQueued w) :
    NoWrappedQueued (run w ops) := by
  intro a ha
  obtain ⟨o, ho, hk⟩ := h a (run_queued ops w a ha)
  obtain ⟨o1, ho1, hk1⟩ := run_kinds ops w a o ho
  exact ⟨o1, ho1, hk1.trans hk⟩

theorem queuesEmpty_iff (w : World) : QueuesEmpty w ↔ ∀ a, ¬ Queued w a := by
  constructor
  · rintro h a ⟨c, hc, ch, hch, ha⟩
    rw [h c hc ch hch] at ha
    cases ha
  · intro h c hc ch hch
    cases hq : ch.queue with
    | nil => rfl
    | cons a rest => exact absurd ⟨c, hc, ch, hch, by rw [hq]; exact List.mem_cons_self _ _⟩ (h a)

theorem run_queuesEmpty (w : World) (ops : List Op) (h : QueuesEmpty w) :
    QueuesEmpty (run w ops) := by
  rw [queuesEmpty_iff] at h ⊢
  intro a ha
  exact h a (run_queued ops w a ha)


theorem noWrappedQueued_of_queuesEmpty (w : World) (h : QueuesEmpty w) : NoWrappedQueued w := by
  intro a ha
  exact absurd ha ((queuesEmpty_iff w).mp h a)

/-- Under the invariant, what `New` returns is a pooled buffer. -/
theorem New_returns_chached (w w1 : World) (m b : Addr) (hinv : NoWrappedQueued w)
    (h : buffer.New w m = .ok w1 b) : ∃ o, w1.objs[b]? = some o ∧ o.kind = .chached := by
  obtain ⟨c, hm, _, hcase⟩ := New_ok_cases w w1 m b h
  rcases hcase with ⟨hb, _, hw1⟩ | ⟨_, ch, rest, _, hch, hq⟩
  · refine ⟨⟨.chached, ⟨[], BytesBuffer.zero.growCap c.size.toNat⟩, 1, m⟩, ?_, rfl⟩
    rw [hw1, hb]
    exact List.getElem?_concat_length _ _
  · have hqd : Queued w b :=
      ⟨c, List.getElem?_mem hm, ch, List.getElem?_mem hch, by rw [hq]; exact List.mem_cons_self _ _⟩
    obtain ⟨o, ho, hk⟩ := hinv b hqd
    have hkk := (New_frame w m).1 b o ho
    rw [h] at hkk
    obtain ⟨o1, ho1, hk1⟩ := hkk
    exact ⟨o1, ho1, hk1.trans hk⟩

/-- C5: `Wrap` leaves every manager (channels and both cursors) as it is; the release
of a wrapped buffer (`Decrement` taking its count from 1 to 0) returns, leaves every
manager as it is and changes only this buffer, whose content becomes empty; hence,
starting from any state in which no wrapped buffer waits in a channel, after any
sequence of calls whatever `New` returns is a pooled buffer, never a wrapped one. -/
theorem Wrapped_never_pooled :
    (∀ (w : World) (m : Addr) (data : List Byte),
      (buffer.Wrap w m data).world.mgrs = w.mgrs ∧
      ∀ a, Queued (buffer.Wrap w m data).world a → Queued w a) ∧
    (∀ (w : World) (b : Addr) (o : Obj),
      w.objs[b]? = some o → o.kind = .sDirect → o.count = 1 →
      ICache.Decrement w b =
        .ok { w with objs := w.objs.set b { o with count := 0, buf := { o.buf with buf := [] } },
                     pushes := w.pushes ++ [(o.cache, b)] } ()) ∧
    (∀ (w : World), NoWrappedQueued w →
      ∀ (ops : List Op) (m : Addr) (w1 : World) (b : Addr),
        buffer.New (run w ops) m = .ok w1 b →
        ∃ o, w1.objs[b]? = some o ∧ o.kind = .chached) := by
  refine ⟨fun w m data => ⟨rfl, fun a h => queued_of_mgrs_eq rfl a h⟩, ?_, ?_⟩
  · intro w b o hb hk hc
    rw [Decrement_unfold w b o hb, hc]
    have z : wrap32 (1 - 1) = 0 := by simp [wrap32]
    rw [z, if_pos rfl]
    rw [push_sDirect _ o.cache b { o with count := 0 } (by simpa using getElem?_set_same hb) hk]
    simp [World.setObj, BytesBuffer.Reset, List.set_set]
  · intro w hinv ops m w1 b h
    exact New_returns_chached _ w1 m b (run_noWrappedQueued w ops hinv) h

/-- C5 at the example manager: a wrapped buffer is released, then `New` is called. -/
theorem Wrapped_never_pooled_witness :
    (exWrapped.objs[0]? = some ⟨.sDirect, ⟨[1, 2, 3], 3⟩, 1, 0⟩ ∧ NoWrappedQueued exWrapped ∧
      buffer.New (run exWrapped [.Decrement 0]) 0 =
        .ok ⟨[⟨.sDirect, ⟨[], 3⟩, 0, 0⟩, ⟨.chached, ⟨[], 64⟩, 1, 0⟩],
             [⟨[⟨[], 4⟩, ⟨[], 4⟩], 64, 2, 1, 1⟩], [], [(0, 0)]⟩ 1) ∧
    (ICache.Decrement exWrapped 0 =
      .ok { exWrapped with
              objs := exWrapped.objs.set 0 ⟨.sDirect, ⟨[], 3⟩, 0, 0⟩,
              pushes := exWrapped.pushes ++ [(0, 0)] } ()) ∧
    (∃ o, ([⟨.sDirect, ⟨[], 3⟩, 0, 0⟩, ⟨.chached, ⟨[], 64⟩, 1, 0⟩] : List Obj)[1]? = some o ∧
      o.kind = .chached) :=
  ⟨⟨by decide, noWrappedQueued_of_queuesEmpty _ (by unfold QueuesEmpty; decide), by decide⟩,
    Wrapped_never_pooled.2.1 exWrapped 0 ⟨.sDirect, ⟨[1, 2, 3], 3⟩, 1, 0⟩
      (by decide) rfl rfl,
    Wrapped_never_pooled.2.2 exWrapped (noWrappedQueued_of_queuesEmpty _ (by unfold QueuesEmpty; decide))
      [.Decrement 0] 0
      ⟨[⟨.sDirect, ⟨[], 3⟩, 0, 0⟩, ⟨.chached, ⟨[], 64⟩, 1, 0⟩],
        [⟨[⟨[], 4⟩, ⟨[], 4⟩], 64, 2, 1, 1⟩], [], [(0, 0)]⟩ 1 (by decide)⟩


/-! ## Release of a pooled buffer -/

/-- C6, the code at the failing input: the last `Decrement` of the example pooled
buffer (content `7, 8`, count 1) resets it and advances the write cursor from 1 to
2, which selects shard 0, a channel with capacity 4 and nothing queued; afterwards
the buffer is in no channel at all, because `push` discards the index and sends
nothing. -/
theorem release_does_not_enqueue :
    exWritten = ⟨[⟨.chached, ⟨[7, 8], 64⟩, 1, 0⟩],
                 [⟨[⟨[], 4⟩, ⟨[], 4⟩], 64, 2, 1, 1⟩], [], []⟩ ∧
    ICache.Decrement exWritten 0 =
      .ok ⟨[⟨.chached, ⟨[], 64⟩, 0, 0⟩],
           [⟨[⟨[], 4⟩, ⟨[], 4⟩], 64, 2, 1, 2⟩], [], [(0, 0)]⟩ () ∧
    shardIndex 1 2 = 0 ∧
    ¬ Queued (ICache.Decrement exWritten 0).world 0 := by
  refine ⟨by decide, by decide, by decide, ?_⟩
  intro h
  have h1 : Queued exWritten 0 := step_queued exWritten (.Decrement 0) 0 h
  have h2 : QueuesEmpty exWritten := by unfold QueuesEmpty; decide
  exact (queuesEmpty_iff _).mp h2 0 h1

/-! ## Construction of the manager -/

theorem runtime_limits :
    ((maxAlloc : Nat) : Int) = 281474976710656 ∧
    ((maxAlloc - hchanSize : Nat) : Int) = 281474976710560 ∧
    ((ptrSize : Nat) : Int) = 8 ∧ ((ifaceSize : Nat) : Int) = 16 := by
  decide

/-- C7 as stated fails for a count whose channels the runtime cannot allocate: on two
processors `NewCache(1 << 62, 64)` asks for channels of capacity 2^61 and panics in
`make` (size out of range); no manager is returned. -/
theorem NewCache_panics_on_huge_count :
    ((1 : Int) ≤ 2 ∧ (0 : Int) ≤ 4611686018427387904 ∧
      Int.tdiv 4611686018427387904 2 = 2305843009213693952) ∧
    NewCache World.empty 2 4611686018427387904 64 = .fault World.empty .makeOutOfRange := by
  decide

/-- C7, amended: for a processor count `p` with `1 ≤ p` (a value of `runtime.NumCPU()`,
which the Go runtime keeps in an int32), every `count ≥ 0` for which a channel of
capacity `count / p` is within the limit of the runtime (16 bytes for each of its
`count / p` entries, at most `maxAlloc - hchanSize` in all) and every `size`,
`NewCache(count, size)` returns a new manager with exactly `p` channels, each empty
and of capacity `count / p` (truncating division), the size hint `size`, the read
cursor 0 and the write cursor `p / 2`. -/
theorem NewCache_initial (w : World) (p count size : Int)
    (hp : 1 ≤ p) (hp32 : p ≤ 2147483647) (hc : 0 ≤ count)
    (hcap : (ifaceSize : Int) * Int.tdiv count p ≤ ((maxAlloc - hchanSize : Nat) : Int)) :
    ∃ c, NewCache w p count size = .ok { w with mgrs := w.mgrs ++ [c] } w.mgrs.length ∧
      (c.buffers.length : Int) = p ∧
      (∀ ch ∈ c.buffers, ch.queue = [] ∧ (ch.cap : Int) = Int.tdiv count p) ∧
      c.size = size ∧ c.num = p ∧ c.read = 0 ∧ c.write = Int.tdiv p 2 := by
  have hw : wrap32 p = p := wrap32_of_isInt32 ⟨by omega, hp32⟩
  have hd : 0 ≤ Int.tdiv count p := Int.tdiv_nonneg hc (by omega)
  refine ⟨⟨List.replicate p.toNat ⟨[], (Int.tdiv count p).toNat⟩, size, p, 0, Int.tdiv p 2⟩,
    ?_, ?_, ?_, rfl, rfl, rfl, rfl⟩
  · obtain ⟨e1, _, e3, _⟩ := runtime_limits
    unfold NewCache
    simp only [hw]
    rw [if_neg (by rw [e1, e3]; omega), if_neg (by omega), if_neg (by omega),
      if_neg (by omega)]
  · simp only [List.length_replicate]
    exact Int.toNat_of_nonneg (by omega)
  · intro ch hch
    rw [List.eq_of_mem_replicate hch]
    exact ⟨rfl, Int.toNat_of_nonneg hd⟩

/-- C7, amended, on two processors: eight buffers are spread as two channels of
capacity four. -/
theorem NewCache_initial_witness :
    ((1 : Int) ≤ 2 ∧ (2 : Int) ≤ 2147483647 ∧ (0 : Int) ≤ 8 ∧
      (ifaceSize : Int) * Int.tdiv 8 2 ≤ ((maxAlloc - hchanSize : Nat) : Int)) ∧
    ∃ c, NewCache World.empty 2 8 64 =
        .ok { World.empty with mgrs := World.empty.mgrs ++ [c] } World.empty.mgrs.length ∧
      (c.buffers.length : Int) = 2 ∧
      (∀ ch ∈ c.buffers, ch.queue = [] ∧ (ch.cap : Int) = Int.tdiv 8 2) ∧
      c.size = 64 ∧ c.num = 2 ∧ c.read = 0 ∧ c.write = Int.tdiv 2 2 :=
  ⟨⟨by decide, by decide, by decide, by decide⟩,
    NewCache_initial World.empty 2 8 64 (by decide) (by decide) (by decide) (by decide)⟩

/-! ## The guarded read -/

/-- C8: when `dest.ReadFrom(r)` returns with error `e` (nil on success), `ReadAll`
returns exactly `e`; when it panics, `ReadAll` returns nil; so `ReadAll` returns a
non-nil error exactly when `ReadFrom` returned that error.  `ReadAll` itself always
returns. -/
theorem ReadAll_result (w : World) (dest : Addr) (r : List ReadCall) :
    (∀ w1 n e, ICache.ReadFrom w dest r = .ok w1 (n, e) → (ReadAll w dest r).2 = e) ∧
    (∀ w1 f, ICache.ReadFrom w dest r = .fault w1 f → (ReadAll w dest r).2 = none) ∧
    (∀ e, (ReadAll w dest r).2 = some e ↔
      ∃ w1 n, ICache.ReadFrom w dest r = .ok w1 (n, some e)) := by
  cases h : ICache.ReadFrom w dest r with
  | fault w1 f => simp [ReadAll, h]
  | ok w1 res =>
    obtain ⟨n, err⟩ := res
    cases err <;> simp [ReadAll, h]

/-- C8 on the example pooled buffer: a reader failing with error 5 after three bytes,
and a reader that panics after two. -/
theorem ReadAll_result_witness :
    (ICache.ReadFrom exPooled 0 [.bytes [1, 2] none, .bytes [3] (some (.other 5))] =
        .ok ⟨[⟨.chached, ⟨[1, 2, 3], 514⟩, 1, 0⟩],
             [⟨[⟨[], 4⟩, ⟨[], 4⟩], 64, 2, 1, 1⟩], [], []⟩ (3, some (.other 5)) ∧
      ICache.ReadFrom exPooled 0 [.bytes [1, 2] none, .panics 9] =
        .fault ⟨[⟨.chached, ⟨[1, 2], 514⟩, 1, 0⟩],
                [⟨[⟨[], 4⟩, ⟨[], 4⟩], 64, 2, 1, 1⟩], [], []⟩ (.readerPanic 9)) ∧
    (ReadAll exPooled 0 [.bytes [1, 2] none, .bytes [3] (some (.other 5))]).2 =
      some (.other 5) ∧
    (ReadAll exPooled 0 [.bytes [1, 2] none, .panics 9]).2 = none :=
  ⟨⟨by decide, by decide⟩,
    (ReadAll_result exPooled 0 [.bytes [1, 2] none, .bytes [3] (some (.other 5))]).1
      (ICache.ReadFrom exPooled 0 [.bytes [1, 2] none, .bytes [3] (some (.other 5))]).world
      3 (some (.other 5)) (by decide),
    (ReadAll_result exPooled 0 [.bytes [1, 2] none, .panics 9]).2.1
      (ICache.ReadFrom exPooled 0 [.bytes [1, 2] none, .panics 9]).world
      (.readerPanic 9) (by decide)⟩


/-! ## Concurrent `Decrement` calls -/

theorem countP_set_balance {α : Type} (p : α → Bool) :
    ∀ (l : List α) (i : Nat) (a x : α), l[i]? = some x →
      (l.set i a).countP p + (if p x then 1 else 0) = l.countP p + (if p a then 1 else 0) := by
  intro l
  induction l with
  | nil => intro i a x h; simp at h
  | cons y l ih =>
    intro i a x h
    cases i with
    | zero =>
      simp only [List.getElem?_cons_zero, Option.some.injEq] at h
      subst h
      simp only [List.set_cons_zero, List.countP_cons]
      omega
    | succ i =>
      simp only [List.getElem?_cons_succ] at h
      have := ih i a x h
      simp only [List.set_cons_succ, List.countP_cons]
      omega

theorem concInv_step (w : World) (b m : Addr) (s : Conc) (i : Nat) (h : ConcInv w b m s) :
    ConcInv w b m (s.step b i) := by
  obtain ⟨⟨o, hb, hcnt, hcache⟩, hzero, hpush, hlen⟩ := h
  unfold Conc.step
  cases hi : s.threads[i]? with
  | none => exact ⟨⟨o, hb, hcnt, hcache⟩, hzero, hpush, hlen⟩
  | some t =>
    have hW := countP_set_balance Thread.waiting s.threads i
    have hZ := countP_set_balance Thread.sawZero s.threads i
    have hR := countP_set_balance Thread.released s.threads i
    have hle : s.threads.countP Thread.waiting ≤ s.threads.length := List.countP_le_length _
    cases t with
    | done v => exact ⟨⟨o, hb, hcnt, hcache⟩, hzero, hpush, hlen⟩
    | start =>
      simp only [hb]
      obtain ⟨v, hv⟩ : ∃ v, v = wrap32 (o.count - 1) := ⟨_, rfl⟩
      rw [← hv]
      have hW1 := hW (.added v) .start hi
      have hZ1 := hZ (.added v) .start hi
      have hR1 := hR (.added v) .start hi
      simp only [Thread.waiting, Thread.sawZero, Thread.released, if_true, if_false,
        Bool.false_eq_true, decide_eq_true_eq] at hW1 hZ1 hR1
      have hpos : 1 ≤ s.threads.countP Thread.waiting := by omega
      have hv1 : v = ((s.threads.countP Thread.waiting : Nat) : Int) - 1 := by
        rw [hv, hcnt]; unfold wrap32; omega
      refine ⟨⟨{ o with count := v }, ?_, ?_, hcache⟩, ?_, ?_, ?_⟩
      · simpa using getElem?_set_same hb
      · show v = ((List.countP Thread.waiting (s.threads.set i (.added v)) : Nat) : Int)
        omega
      · show List.countP Thread.sawZero (s.threads.set i (.added v)) =
          if List.countP Thread.waiting (s.threads.set i (.added v)) = 0 then 1 else 0
        rw [if_neg (by omega)] at hzero
        by_cases h1 : s.threads.countP Thread.waiting = 1
        · rw [if_pos (by omega)] at hZ1
          rw [if_pos (by omega)]
          omega
        · rw [if_neg (by omega)] at hZ1
          rw [if_neg (by omega)]
          omega
      · show s.world.pushes =
          w.pushes ++ List.replicate (List.countP Thread.released (s.threads.set i (.added v))) (m, b)
        have e : (s.threads.set i (.added v)).countP Thread.released =
            s.threads.countP Thread.released := by omega
        rw [e]; exact hpush
      · simpa using hlen
    | added v =>
      simp only [hb]
      have hW1 := hW (.done v) (.added v) hi
      have hZ1 := hZ (.done v) (.added v) hi
      have hR1 := hR (.done v) (.added v) hi
      simp only [Thread.waiting, Thread.sawZero, Thread.released, if_false,
        Bool.false_eq_true, decide_eq_true_eq] at hW1 hZ1 hR1
      have eW : (s.threads.set i (.done v)).countP Thread.waiting =
          s.threads.countP Thread.waiting := by omega
      have eZ : (s.threads.set i (.done v)).countP Thread.sawZero =
          s.threads.countP Thread.sawZero := by omega
      by_cases hv : v = 0
      · rw [if_pos hv] at hR1
        simp only [hv, if_true]
        have hk := push_keeps s.world o.cache b o hb
        refine ⟨⟨{ o with buf := o.buf.Reset }, ?_, ?_, hcache⟩, ?_, ?_, ?_⟩
        · show (buffer.push s.world o.cache b).world.objs[b]? = _
          rw [hk.2]; exact getElem?_set_same hb
        · show o.count = _
          rw [hv] at eW
          rw [hcnt, eW]
        · rw [hv] at eW eZ
          show List.countP _ (s.threads.set i (.done 0)) = _
          rw [eZ, eW]; exact hzero
        · show (buffer.push s.world o.cache b).world.pushes = _
          rw [hv] at hR1
          have e : (s.threads.set i (.done 0)).countP Thread.released =
              s.threads.countP Thread.released + 1 := by omega
          rw [hk.1, hpush, hcache]
          show _ = w.pushes ++ List.replicate (List.countP _ (s.threads.set i (.done 0))) (m, b)
          rw [e, List.replicate_succ', List.append_assoc]
        · simpa using hlen
      · rw [if_neg hv] at hR1
        simp only [hv, if_false]
        refine ⟨⟨o, hb, ?_, hcache⟩, ?_, ?_, ?_⟩
        · show o.count = _
          rw [hcnt, eW]
        · show List.countP _ (s.threads.set i (.done v)) = _
          rw [eZ, eW]; exact hzero
        · have e : (s.threads.set i (.done v)).countP Thread.released =
              s.threads.countP Thread.released := by omega
          show s.world.pushes = w.pushes ++ List.replicate (List.countP _ (s.threads.set i (.done v))) (m, b)
          rw [e]; exact hpush
        · simpa using hlen

theorem concInv_run (w : World) (b m : Addr) (sched : List Nat) :
    ∀ s : Conc, ConcInv w b m s → ConcInv w b m (s.run b sched) := by
  induction sched with
  | nil => intro s h; exact h
  | cons i rest ih =>
    intro s h
    exact ih _ (concInv_step w b m s i h)


theorem conc_step_length (s : Conc) (b : Addr) (j : Nat) :
    (s.step b j).threads.length = s.threads.length := by
  unfold Conc.step
  cases hj : s.threads[j]? with
  | none => rfl
  | some t =>
    cases t with
    | done v => rfl
    | start =>
      cases hb : s.world.objs[b]? with
      | none => rfl
      | some o => simp
    | added v =>
      cases hb : s.world.objs[b]? with
      | none => rfl
      | some o =>
        by_cases hv : v = 0 <;> simp [hv]

theorem conc_run_length (b : Addr) (sched : List Nat) :
    ∀ s : Conc, (s.run b sched).threads.length = s.threads.length := by
  induction sched with
  | nil => intro s; rfl
  | cons j rest ih =>
    intro s
    exact (ih (s.step b j)).trans (conc_step_length s b j)

/-- Progress of one step: no goroutine goes back, and the goroutine that is scheduled
moves on unless it has finished, provided the buffer exists. -/
theorem conc_step_stage (s : Conc) (b : Addr) (j : Nat) (o : Obj)
    (hb : s.world.objs[b]? = some o) (i : Nat) (t : Thread) (hi : s.threads[i]? = some t) :
    ∃ t1, (s.step b j).threads[i]? = some t1 ∧ t.stage ≤ t1.stage ∧
      (j = i → t.stage + 1 ≤ t1.stage ∨ 2 ≤ t1.stage) := by
  unfold Conc.step
  cases hj : s.threads[j]? with
  | none =>
    refine ⟨t, hi, le_refl _, fun hji => ?_⟩
    rw [hji, hi] at hj; cases hj
  | some tj =>
    cases tj with
    | done v =>
      refine ⟨t, hi, le_refl _, fun hji => ?_⟩
      rw [hji, hi] at hj
      injection hj with hj
      rw [hj]; right; exact le_refl _
    | start =>
      simp only [hb]
      by_cases hji : j = i
      · subst hji
        rw [hi] at hj
        injection hj with hj
        subst hj
        exact ⟨.added (wrap32 (o.count - 1)), getElem?_set_same hi, by simp [Thread.stage],
          fun _ => Or.inl (by simp [Thread.stage])⟩
      · exact ⟨t, by simpa using (List.getElem?_set_ne hji).trans hi, le_refl _,
          fun h => absurd h hji⟩
    | added v =>
      simp only [hb]
      by_cases hji : j = i
      · subst hji
        rw [hi] at hj
        injection hj with hj
        subst hj
        refine ⟨.done v, ?_, by simp [Thread.stage], fun _ => Or.inl (by simp [Thread.stage])⟩
        by_cases hv : v = 0 <;> simp [hv, getElem?_set_same hi]
      · refine ⟨t, ?_, le_refl _, fun h => absurd h hji⟩
        by_cases hv : v = 0 <;> simp [hv, List.getElem?_set_ne hji, hi]

/-- Progress of a schedule: a goroutine scheduled `n` times has made `n` steps or has
finished. -/
theorem conc_run_stage (w : World) (b m : Addr) (i : Nat) (sched : List Nat) :
    ∀ (s : Conc) (t : Thread), ConcInv w b m s → s.threads[i]? = some t →
      ∃ t1, (s.run b sched).threads[i]? = some t1 ∧
        (t.stage + sched.count i ≤ t1.stage ∨ 2 ≤ t1.stage) := by
  induction sched with
  | nil =>
    intro s t _ hi
    exact ⟨t, hi, Or.inl (by simp)⟩
  | cons j rest ih =>
    intro s t hinv hi
    obtain ⟨o, hb, _, _⟩ := hinv.1
    obtain ⟨t1, h1, hmono, hmove⟩ := conc_step_stage s b j o hb i t hi
    obtain ⟨t2, h2, hstage⟩ := ih (s.step b j) t1 (concInv_step w b m s j hinv) h1
    refine ⟨t2, h2, ?_⟩
    rw [List.count_cons]
    by_cases hji : j = i
    · have := hmove hji
      simp only [hji, beq_self_eq_true, if_true]
      omega
    · have hne : (j == i) = false := by simpa using hji
      simp only [hne, Bool.false_eq_true, if_false]
      omega

/-- C9: `k` goroutines call `Decrement` concurrently on a buffer whose count is
`k ≥ 1`.  In every interleaving of their steps at most one goroutine has observed
the value 0 and `push` has been called at most once; when all `k` calls have
finished, exactly one of them observed 0 and `push` has been called exactly once,
for this buffer; and the calls do finish: in every interleaving that schedules each
goroutine at least twice (its atomic add, then its comparison and release) all `k`
calls have finished, so the release is neither repeated nor skipped. -/
theorem concurrent_Decrement_releases_once (w : World) (b : Addr) (o : Obj) (k : Nat)
    (sched : List Nat) (hb : w.objs[b]? = some o) (hk : 1 ≤ k) (hc : o.count = (k : Int))
    (h32 : isInt32 o.count) :
    (Conc.run ⟨w, List.replicate k .start⟩ b sched).threads.countP Thread.sawZero ≤ 1 ∧
    ((Conc.run ⟨w, List.replicate k .start⟩ b sched).world.pushes = w.pushes ∨
      (Conc.run ⟨w, List.replicate k .start⟩ b sched).world.pushes =
        w.pushes ++ [(o.cache, b)]) ∧
    ((∀ t ∈ (Conc.run ⟨w, List.replicate k .start⟩ b sched).threads, t.finished = true) →
      (Conc.run ⟨w, List.replicate k .start⟩ b sched).threads.countP Thread.sawZero = 1 ∧
      (Conc.run ⟨w, List.replicate k .start⟩ b sched).world.pushes =
        w.pushes ++ [(o.cache, b)]) ∧
    ((∀ i, i < k → 2 ≤ sched.count i) →
      (∀ t ∈ (Conc.run ⟨w, List.replicate k .start⟩ b sched).threads, t.finished = true) ∧
      (Conc.run ⟨w, List.replicate k .start⟩ b sched).threads.countP Thread.sawZero = 1 ∧
      (Conc.run ⟨w, List.replicate k .start⟩ b sched).world.pushes =
        w.pushes ++ [(o.cache, b)]) := by
  have hinit : ConcInv w b o.cache ⟨w, List.replicate k .start⟩ := by
    have e1 : (List.replicate k Thread.start).countP Thread.waiting = k := by
      simp [List.countP_replicate, Thread.waiting]
    have e2 : (List.replicate k Thread.start).countP Thread.sawZero = 0 := by
      simp [List.countP_replicate, Thread.sawZero]
    have e3 : (List.replicate k Thread.start).countP Thread.released = 0 := by
      simp [List.countP_replicate, Thread.released]
    refine ⟨⟨o, hb, ?_, rfl⟩, ?_, ?_, ?_⟩
    · show o.count = (((List.replicate k Thread.start).countP Thread.waiting : Nat) : Int)
      rw [e1, hc]
    · show (List.replicate k Thread.start).countP Thread.sawZero =
        if (List.replicate k Thread.start).countP Thread.waiting = 0 then 1 else 0
      rw [e1, e2, if_neg (by omega)]
    · show w.pushes = w.pushes ++
        List.replicate ((List.replicate k Thread.start).countP Thread.released) (o.cache, b)
      rw [e3]; simp
    · show (((List.replicate k Thread.start).length : Nat) : Int) ≤ 2147483647
      rw [List.length_replicate, ← hc]; exact h32.2
  have hprog : (∀ i, i < k → 2 ≤ sched.count i) →
      ∀ t ∈ (Conc.run ⟨w, List.replicate k .start⟩ b sched).threads, t.finished = true := by
    intro hfair t ht
    obtain ⟨i, hi⟩ := List.mem_iff_getElem?.mp ht
    have hlen := conc_run_length b sched ⟨w, List.replicate k .start⟩
    have hik : i < k := by
      have := (List.getElem?_eq_some.mp hi).1
      rw [hlen] at this
      simpa using this
    obtain ⟨t1, h1, hstage⟩ := conc_run_stage w b o.cache i sched
      ⟨w, List.replicate k .start⟩ .start hinit (List.getElem?_replicate_of_lt hik)
    rw [hi] at h1
    injection h1 with h1
    subst h1
    have h2 := hfair i hik
    have hst : 2 ≤ t.stage := by
      have e0 : Thread.start.stage = 0 := rfl
      rw [e0] at hstage
      omega
    cases t <;> simp_all [Thread.stage, Thread.finished]
  obtain ⟨_, hzero, hpush, _⟩ := concInv_run w b o.cache sched _ hinit
  generalize Conc.run ⟨w, List.replicate k .start⟩ b sched = s at hzero hpush hprog ⊢
  have hle : s.threads.countP Thread.released ≤ s.threads.countP Thread.sawZero := by
    apply List.countP_mono_left
    intro t _ ht
    cases t <;> simp_all [Thread.released, Thread.sawZero]
  have hz1 : s.threads.countP Thread.sawZero ≤ 1 := by
    rw [hzero]; split_ifs <;> omega
  have hdone : (∀ t ∈ s.threads, t.finished = true) →
      s.threads.countP Thread.sawZero = 1 ∧ s.world.pushes = w.pushes ++ [(o.cache, b)] := by
    intro hfin
    have hw0 : s.threads.countP Thread.waiting = 0 := by
      rw [List.countP_eq_zero]
      intro t ht
      have := hfin t ht
      cases t <;> simp_all [Thread.finished, Thread.waiting]
    have heq : s.threads.countP Thread.released = s.threads.countP Thread.sawZero := by
      apply List.countP_congr
      intro t ht
      have := hfin t ht
      cases t <;> simp_all [Thread.finished, Thread.released, Thread.sawZero]
    rw [hw0, if_pos rfl] at hzero
    refine ⟨hzero, ?_⟩
    rw [hpush, heq, hzero]; rfl
  refine ⟨hz1, ?_, hdone, fun hfair => ⟨hprog hfair, hdone (hprog hfair)⟩⟩
  rw [hpush]
  rcases Nat.eq_zero_or_pos (s.threads.countP Thread.released) with h0 | h1
  · left; rw [h0]; simp
  · right
    have e : s.threads.countP Thread.released = 1 := by omega
    rw [e]; rfl


/-- C9 for three goroutines on the shared example buffer, interleaved as
0, 1, 1, 2, 0, 2: each is scheduled twice, all finish, and the goroutine that
decrements last observes 0 and releases. -/
theorem concurrent_Decrement_releases_once_witness :
    (exShared.objs[0]? = some ⟨.chached, ⟨[], 64⟩, 3, 0⟩ ∧ 1 ≤ 3 ∧ isInt32 3 ∧
      (∀ i, i < 3 → 2 ≤ [0, 1, 1, 2, 0, 2].count i) ∧
      (Conc.run ⟨exShared, List.replicate 3 .start⟩ 0 [0, 1, 1, 2, 0, 2]).threads =
        [.done 2, .done 1, .done 0]) ∧
    (∀ t ∈ (Conc.run ⟨exShared, List.replicate 3 .start⟩ 0 [0, 1, 1, 2, 0, 2]).threads,
      t.finished = true) ∧
    (Conc.run ⟨exShared, List.replicate 3 .start⟩ 0 [0, 1, 1, 2, 0, 2]).threads.countP
        Thread.sawZero = 1 ∧
    (Conc.run ⟨exShared, List.replicate 3 .start⟩ 0 [0, 1, 1, 2, 0, 2]).world.pushes =
      exShared.pushes ++ [(0, 0)] :=
  ⟨⟨by decide, by decide, by decide, by decide, by decide⟩,
    (concurrent_Decrement_releases_once exShared 0 ⟨.chached, ⟨[], 64⟩, 3, 0⟩ 3
      [0, 1, 1, 2, 0, 2] (by decide) (by decide) rfl (by decide)).2.2.2 (by decide)⟩


/-! ## Reachable states -/

theorem getElem?_set_shape {ms : List buffer} {m0 : Addr} {c0 c1 : buffer}
    (h0 : ms[m0]? = some c0) (hn : c1.num = c0.num) (hs : c1.size = c0.size)
    (hl : c1.buffers.length = c0.buffers.length) (m : Addr) (c : buffer)
    (hm : ms[m]? = some c) :
    ∃ c', (ms.set m0 c1)[m]? = some c' ∧ c'.num = c.num ∧ c'.size = c.size ∧
      c'.buffers.length = c.buffers.length := by
  by_cases hmm : m0 = m
  · subst hmm
    rw [h0] at hm
    injection hm with hm
    subst hm
    exact ⟨c1, getElem?_set_same h0, hn, hs, hl⟩
  · exact ⟨c, by rw [List.getElem?_set_ne hmm]; exact hm, rfl, rfl, rfl⟩

/-- Every call keeps every manager with its shard count, size hint and number of
channels. -/
theorem step_shape (w : World) (op : Op) (m : Addr) (c : buffer) (hm : w.mgrs[m]? = some c) :
    ∃ c', (step w op).mgrs[m]? = some c' ∧ c'.num = c.num ∧ c'.size = c.size ∧
      c'.buffers.length = c.buffers.length := by
  have same : ∀ w1 : World, w1.mgrs = w.mgrs →
      ∃ c', w1.mgrs[m]? = some c' ∧ c'.num = c.num ∧ c'.size = c.size ∧
        c'.buffers.length = c.buffers.length :=
    fun w1 h => ⟨c, by rw [h]; exact hm, rfl, rfl, rfl⟩
  cases op with
  | Wrap m1 data => exact same _ rfl
  | Incement b => exact same _ (Incement_frame w b).1
  | Reset b => exact same _ (Reset_frame w b).1
  | Write b p => exact same _ (Write_frame w b p).1
  | Decrement b =>
    rcases (Decrement_frame w b).2 with h | ⟨m0, c0, h0, h⟩
    · exact same _ h
    · show ∃ c', (ICache.Decrement w b).world.mgrs[m]? = some c' ∧ _
      rw [h]
      refine getElem?_set_shape h0 ?_ ?_ ?_ m c hm <;> rfl
  | New m1 =>
    show ∃ c', (buffer.New w m1).world.mgrs[m]? = some c' ∧ _
    rcases New_world_cases w m1 with ⟨_, h⟩ | ⟨c0, h0, ⟨f, h⟩ | ⟨x, _, _, h⟩ | ⟨ch, b, rest, _, _, h⟩⟩
    · rw [h]; exact same _ rfl
    · rw [h]; refine getElem?_set_shape h0 ?_ ?_ ?_ m c hm <;> rfl
    · rw [h]; refine getElem?_set_shape h0 ?_ ?_ ?_ m c hm <;> rfl
    · rw [h, (Incement_frame _ b).1]
      refine getElem?_set_shape h0 ?_ ?_ ?_ m c hm
      · rfl
      · rfl
      · simp

theorem run_shape (ops : List Op) : ∀ (w : World) (m : Addr) (c : buffer),
    w.mgrs[m]? = some c →
    ∃ c', (run w ops).mgrs[m]? = some c' ∧ c'.num = c.num ∧ c'.size = c.size ∧
      c'.buffers.length = c.buffers.length := by
  induction ops with
  | nil => intro w m c h; exact ⟨c, h, rfl, rfl, rfl⟩
  | cons op ops ih =>
    intro w m c h
    obtain ⟨c1, h1, hn1, hs1, hl1⟩ := step_shape w op m c h
    obtain ⟨c2, h2, hn2, hs2, hl2⟩ := ih (step w op) m c1 h1
    exact ⟨c2, h2, hn2.trans hn1, hs2.trans hs1, hl2.trans hl1⟩

/-- With all channels empty, a `New` that returns has allocated: the address is the
first free one and holds a pooled buffer with count one and no content. -/
theorem New_allocates_of_queuesEmpty (w w1 : World) (m b : Addr) (hq : QueuesEmpty w)
    (h : buffer.New w m = .ok w1 b) :
    b = w.objs.length ∧ w.objs[b]? = none ∧
    ∃ o, w1.objs[b]? = some o ∧ o.kind = .chached ∧ o.count = 1 ∧ o.buf.Bytes = [] ∧
      o.cache = m := by
  obtain ⟨c, hm, _, hcase⟩ := New_ok_cases w w1 m b h
  rcases hcase with ⟨hb, _, hw1⟩ | ⟨_, ch, rest, _, hch, hcons⟩
  · refine ⟨hb, by rw [hb]; simp, ⟨.chached, ⟨[], BytesBuffer.zero.growCap c.size.toNat⟩, 1, m⟩,
      ?_, rfl, rfl, rfl, rfl⟩
    rw [hw1, hb]
    exact List.getElem?_concat_length _ _
  · have := hq c (List.getElem?_mem hm) ch (List.getElem?_mem hch)
    rw [hcons] at this
    cases this

/-- With all channels empty, `New` returns whenever the manager has shards, as many
channels as its shard count, a size hint between 0 and `maxAlloc` and a cursor whose
index is not negative. -/
theorem New_returns_of_queuesEmpty (w : World) (m : Addr) (c : buffer) (hq : QueuesEmpty w)
    (hm : w.mgrs[m]? = some c) (hn : 1 ≤ c.num) (hl : (c.buffers.length : Int) = c.num)
    (hs : 0 ≤ c.size) (hmax : c.size ≤ (maxAlloc : Int))
    (hidx : 0 ≤ shardIndex c.read c.num) :
    ∃ w1, buffer.New w m = .ok w1 w.objs.length := by
  have hlt : shardIndex c.read c.num < c.num := Int.tmod_lt_of_pos _ (by omega)
  have hi : (shardIndex c.read c.num).toNat < c.buffers.length := by omega
  obtain ⟨ch, hch⟩ : ∃ ch, c.buffers[(shardIndex c.read c.num).toNat]? = some ch :=
    ⟨c.buffers[(shardIndex c.read c.num).toNat], List.getElem?_eq_getElem hi⟩
  have hempty := hq c (List.getElem?_mem hm) ch (List.getElem?_mem hch)
  exact ⟨_, New_fresh w m c ch hm (by omega) hidx hch hempty hs hmax⟩


theorem NewCache_ok_inv (w w0 : World) (p count size : Int) (m : Addr)
    (hp : 1 ≤ p) (hp32 : p ≤ 2147483647) (h : NewCache w p count size = .ok w0 m) :
    m = w.mgrs.length ∧
    w0 = { w with mgrs := w.mgrs ++
            [⟨List.replicate p.toNat ⟨[], (Int.tdiv count p).toNat⟩, size, p, 0, Int.tdiv p 2⟩] } := by
  have hw : wrap32 p = p := wrap32_of_isInt32 ⟨by omega, hp32⟩
  obtain ⟨e1, _, e3, _⟩ := runtime_limits
  unfold NewCache at h
  simp only [hw] at h
  rw [if_neg (by rw [e1, e3]; omega), if_neg (by omega), if_neg (by omega)] at h
  by_cases hd : Int.tdiv count p < 0 ∨
      ((maxAlloc - hchanSize : Nat) : Int) < ifaceSize * Int.tdiv count p
  · rw [if_pos hd] at h; cases h
  · rw [if_neg hd] at h
    injection h with h1 h2
    exact ⟨h2.symm, h1.symm⟩

theorem New_mgrs_of_empty (w : World) (m : Addr) (c : buffer) (hm : w.mgrs[m]? = some c)
    (hq : ∀ ch ∈ c.buffers, ch.queue = []) :
    (buffer.New w m).world.mgrs = w.mgrs.set m { c with read := wrap32 (c.read + 1) } := by
  rcases New_world_cases w m with ⟨hn, _⟩ | ⟨c0, h0, hcase⟩
  · rw [hm] at hn; cases hn
  · rw [hm] at h0
    injection h0 with h0
    subst h0
    rcases hcase with ⟨f, h⟩ | ⟨x, _, _, h⟩ | ⟨ch, b, rest, hch, hcons, _⟩
    · rw [h]; rfl
    · rw [h]; rfl
    · have := hq ch (List.getElem?_mem hch)
      rw [hcons] at this
      cases this

theorem New_index_fault (w : World) (m : Addr) (c : buffer) (hm : w.mgrs[m]? = some c)
    (hn : c.num ≠ 0) (hidx : shardIndex c.read c.num < 0) :
    buffer.New w m =
      .fault (w.setMgr m { c with read := wrap32 (c.read + 1) }) .indexOutOfRange := by
  unfold buffer.New
  simp only [hm, hn, if_false, hidx, if_true]

/-- The read cursor after `n` calls of `New` on the only manager, whose channels are
empty: every call advances it, also a call that panics. -/
theorem run_New_read (n : Nat) : ∀ (w : World) (c : buffer) (x : Int),
    w.mgrs = [c] → (∀ ch ∈ c.buffers, ch.queue = []) → c.read = wrap32 x →
    (run w (List.replicate n (.New 0))).mgrs = [{ c with read := wrap32 (x + n) }] := by
  induction n with
  | zero =>
    intro w c x hw _ hr
    simp only [List.replicate_zero, run, List.foldl_nil, Nat.cast_zero, add_zero, ← hr]
    exact hw
  | succ n ih =>
    intro w c x hw hq hr
    rw [List.replicate_succ, run_cons]
    have hm : w.mgrs[0]? = some c := by rw [hw]; rfl
    have h1 : (step w (.New 0)).mgrs = [{ c with read := wrap32 (c.read + 1) }] := by
      show (buffer.New w 0).world.mgrs = _
      rw [New_mgrs_of_empty w 0 c hm hq, hw]; rfl
    have h2 := ih (step w (.New 0)) { c with read := wrap32 (c.read + 1) } (x + 1) h1 hq
      (by show wrap32 (c.read + 1) = wrap32 (x + 1); rw [hr, wrap32_add_left])
    rw [h2]
    have e : x + 1 + (n : Int) = x + ((n + 1 : Nat) : Int) := by push_cast; ring
    simp only [e]

/-- C10 as stated fails in three reachable situations.  With a negative size hint the
first `New` panics in `Grow`, and so it does, with `ErrTooLarge`, with the size hint
2^62.  With the example manager (two processors, size hint 64), after 2147483648
calls of `New` the read cursor has wrapped around to the least int32 value, the next
call computes the index -1 and panics: it returns no buffer. -/
theorem New_panics_in_reachable_states :
    (NewCache World.empty 2 8 (-1) = .ok exNegative 0 ∧
      buffer.New exNegative 0 =
        .fault ⟨[], [⟨[⟨[], 4⟩, ⟨[], 4⟩], -1, 2, 1, 1⟩], [], []⟩ .negativeGrow) ∧
    (NewCache World.empty 2 8 4611686018427387904 = .ok exHugeHint 0 ∧
      buffer.New exHugeHint 0 =
        .fault ⟨[], [⟨[⟨[], 4⟩, ⟨[], 4⟩], 4611686018427387904, 2, 1, 1⟩], [], []⟩
          .tooLarge) ∧
    (NewCache World.empty 2 8 64 = .ok exManager 0 ∧
      (run exManager (List.replicate 2147483648 (.New 0))).mgrs =
        [⟨[⟨[], 4⟩, ⟨[], 4⟩], 64, 2, -2147483648, 1⟩] ∧
      shardIndex (-2147483648) 2 = -1 ∧
      buffer.New (run exManager (List.replicate 2147483648 (.New 0))) 0 =
        .fault ((run exManager (List.replicate 2147483648 (.New 0))).setMgr 0
                  ⟨[⟨[], 4⟩, ⟨[], 4⟩], 64, 2, -2147483647, 1⟩) .indexOutOfRange) := by
  have hm : (run exManager (List.replicate 2147483648 (.New 0))).mgrs =
      [⟨[⟨[], 4⟩, ⟨[], 4⟩], 64, 2, -2147483648, 1⟩] := by
    have h := run_New_read 2147483648 exManager ⟨[⟨[], 4⟩, ⟨[], 4⟩], 64, 2, 0, 1⟩ 0
      (by decide) (by decide) (by decide)
    rw [h]
    have e : wrap32 (0 + ((2147483648 : Nat) : Int)) = -2147483648 := by decide
    simp only [e]
  refine ⟨⟨by decide, by decide⟩, ⟨by decide, by decide⟩, by decide, hm, by decide, ?_⟩
  have h := New_index_fault (run exManager (List.replicate 2147483648 (.New 0))) 0
    ⟨[⟨[], 4⟩, ⟨[], 4⟩], 64, 2, -2147483648, 1⟩ (by rw [hm]; rfl) (by decide) (by decide)
  rw [h]
  have e : wrap32 (-2147483648 + 1) = -2147483647 := by decide
  simp only [e]


/-- C10, amended: in every state reached from `NewCache(count, size)` (processor count
`p ≥ 1`) by any sequence of `New`, `Wrap`, `Incement`, `Decrement`, `Reset` and
`Write` calls, every channel is empty; hence no call of `New` receives a buffer: a
call of `New` that returns has allocated, it returns an address that held no object
before (so never a released buffer), with a pooled buffer of count 1 and empty
content; and `New` on the manager does return whenever the size hint lies between 0
and `maxAlloc`, the largest allocation the runtime accepts, and the index computed
from the advanced read cursor is not negative. -/
theorem reachable_queues_empty (p count size : Int) (w0 : World) (m : Addr) (ops : List Op)
    (hp : 1 ≤ p) (hp32 : p ≤ 2147483647)
    (h0 : NewCache World.empty p count size = .ok w0 m) :
    QueuesEmpty (run w0 ops) ∧
    (∀ m1 w1 b, buffer.New (run w0 ops) m1 = .ok w1 b →
      b = (run w0 ops).objs.length ∧ (run w0 ops).objs[b]? = none ∧
      ∃ o, w1.objs[b]? = some o ∧ o.kind = .chached ∧ o.count = 1 ∧ o.buf.Bytes = [] ∧
        o.cache = m1) ∧
    (∃ c, (run w0 ops).mgrs[m]? = some c ∧
      (0 ≤ size → size ≤ (maxAlloc : Int) → 0 ≤ shardIndex c.read c.num →
        ∃ w1, buffer.New (run w0 ops) m = .ok w1 (run w0 ops).objs.length)) := by
  obtain ⟨hm, hw0⟩ := NewCache_ok_inv World.empty w0 p count size m hp hp32 h0
  have hq0 : QueuesEmpty w0 := by
    intro c hc ch hch
    rw [hw0] at hc
    simp only [World.empty, List.nil_append, List.mem_singleton] at hc
    rw [hc] at hch
    rw [List.eq_of_mem_replicate hch]
  have hq : QueuesEmpty (run w0 ops) := run_queuesEmpty w0 ops hq0
  have hm0 : w0.mgrs[m]? =
      some ⟨List.replicate p.toNat ⟨[], (Int.tdiv count p).toNat⟩, size, p, 0, Int.tdiv p 2⟩ := by
    rw [hw0, hm]; rfl
  obtain ⟨c, hc, hnum, hsize, hlen⟩ := run_shape ops w0 m _ hm0
  refine ⟨hq, ?_, c, hc, ?_⟩
  · intro m1 w1 b h
    exact New_allocates_of_queuesEmpty _ w1 m1 b hq h
  · intro hs hmax hidx
    simp only at hnum hsize hlen
    refine New_returns_of_queuesEmpty _ m c hq hc (by omega) ?_ (by omega)
      (by rw [hsize]; exact hmax) hidx
    rw [hlen, List.length_replicate, hnum]
    exact Int.toNat_of_nonneg (by omega)

/-- C10, amended, at the example manager after a buffer was obtained, written,
shared and released: the channels are empty and `New` allocates at address 1. -/
theorem reachable_queues_empty_witness :
    ((1 : Int) ≤ 2 ∧ (2 : Int) ≤ 2147483647 ∧ NewCache World.empty 2 8 64 = .ok exManager 0) ∧
    QueuesEmpty (run exManager [.New 0, .Write 0 [7, 8], .Incement 0, .Decrement 0, .Decrement 0]) ∧
    buffer.New (run exManager [.New 0, .Write 0 [7, 8], .Incement 0, .Decrement 0, .Decrement 0]) 0 =
      .ok ⟨[⟨.chached, ⟨[], 64⟩, 0, 0⟩, ⟨.chached, ⟨[], 64⟩, 1, 0⟩],
           [⟨[⟨[], 4⟩, ⟨[], 4⟩], 64, 2, 2, 2⟩], [], [(0, 0)]⟩ 1 :=
  ⟨⟨by decide, by decide, by decide⟩,
    (reachable_queues_empty 2 8 64 exManager 0
      [.New 0, .Write 0 [7, 8], .Incement 0, .Decrement 0, .Decrement 0]
      (by decide) (by decide) (by decide)).1,
    by decide⟩

/-! ## Receiving a queued buffer -/

/-- The receive branch of `New`: the selected channel exists and its oldest entry is
the existing buffer `b`. -/
theorem New_dequeue (w : World) (m : Addr) (c : buffer) (ch : Chan) (b : Addr)
    (rest : List Addr) (o : Obj)
    (hm : w.mgrs[m]? = some c) (hn : c.num ≠ 0) (hidx : 0 ≤ shardIndex c.read c.num)
    (hch : c.buffers[(shardIndex c.read c.num).toNat]? = some ch) (hq : ch.queue = b :: rest)
    (hb : w.objs[b]? = some o) :
    buffer.New w m =
      .ok { w with objs := w.objs.set b { o with count := wrap32 (o.count + 1) },
                   mgrs := w.mgrs.set m
                     { c with read := wrap32 (c.read + 1),
                              buffers := c.buffers.set (shardIndex c.read c.num).toNat
                                { ch with queue := rest } } } b := by
  obtain ⟨k, bb, cnt, ca⟩ := o
  unfold buffer.New
  simp only [hm, hn, if_false, not_lt.mpr hidx, hch, hq]
  cases k <;>
    simp [ICache.Incement, World.setMgr, World.setObj, hb, chached.Incement, sDirect.Incement]

/-- C13: when the channel selected by the advanced read cursor is not empty and its
head is the buffer `b` with count `c`, `New` returns that same `b`; its count is now
`c + 1` (the int32 addition of the atomic add: the integer `c + 1` for every `c`
below the greatest int32 value); exactly `b` has left the front of that channel, the
entries behind it keep their order; every other channel, the write cursor, the shard
count and the size hint, and every other manager are as before; no object was
allocated and no other object changed. -/
theorem New_receives_head (w : World) (m : Addr) (c : buffer) (ch : Chan) (b : Addr)
    (rest : List Addr) (o : Obj)
    (hm : w.mgrs[m]? = some c) (hn : c.num ≠ 0) (hidx : 0 ≤ shardIndex c.read c.num)
    (hch : c.buffers[(shardIndex c.read c.num).toNat]? = some ch) (hq : ch.queue = b :: rest)
    (hb : w.objs[b]? = some o) :
    ∃ w1 c1, buffer.New w m = .ok w1 b ∧
      w1.objs = w.objs.set b { o with count := wrap32 (o.count + 1) } ∧
      w1.objs.length = w.objs.length ∧
      (∃ o1, w1.objs[b]? = some o1 ∧ o1.count = wrap32 (o.count + 1) ∧
        (o.count ≠ 2147483647 → isInt32 o.count → o1.count = o.count + 1) ∧
        o1.kind = o.kind ∧ o1.buf = o.buf ∧ o1.cache = o.cache) ∧
      (∀ a, a ≠ b → w1.objs[a]? = w.objs[a]?) ∧
      w1.mgrs[m]? = some c1 ∧
      c1.buffers[(shardIndex c.read c.num).toNat]? = some { ch with queue := rest } ∧
      (∀ i, i ≠ (shardIndex c.read c.num).toNat → c1.buffers[i]? = c.buffers[i]?) ∧
      c1.buffers.length = c.buffers.length ∧
      c1.write = c.write ∧ c1.num = c.num ∧ c1.size = c.size ∧
      c1.read = wrap32 (c.read + 1) ∧
      (∀ m1, m1 ≠ m → w1.mgrs[m1]? = w.mgrs[m1]?) := by
  have hnew := New_dequeue w m c ch b rest o hm hn hidx hch hq hb
  refine ⟨_, { c with read := wrap32 (c.read + 1),
                      buffers := c.buffers.set (shardIndex c.read c.num).toNat
                        { ch with queue := rest } },
    hnew, rfl, by simp, ⟨{ o with count := wrap32 (o.count + 1) }, getElem?_set_same hb, rfl,
      ?_, rfl, rfl, rfl⟩, ?_, getElem?_set_same hm, getElem?_set_same hch, ?_, by simp,
    rfl, rfl, rfl, rfl, ?_⟩
  · intro hmax h32
    unfold isInt32 at h32
    show wrap32 (o.count + 1) = o.count + 1
    unfold wrap32
    omega
  · intro a hab
    exact List.getElem?_set_ne (Ne.symm hab)
  · intro i hi
    exact List.getElem?_set_ne (Ne.symm hi)
  · intro m1 hm1
    exact List.getElem?_set_ne (Ne.symm hm1)

/-- C13 at the example state with two queued buffers: `New` hands out the head,
address 0, with count 1, and leaves address 1 in the channel. -/
theorem New_receives_head_witness :
    (exQueued.mgrs[0]? = some ⟨[⟨[], 4⟩, ⟨[0, 1], 4⟩], 64, 2, 0, 1⟩ ∧ (2 : Int) ≠ 0 ∧
      shardIndex 0 2 = 1 ∧
      exQueued.objs[0]? = some ⟨.chached, ⟨[], 64⟩, 0, 0⟩) ∧
    ∃ w1 c1, buffer.New exQueued 0 = .ok w1 0 ∧
      w1.objs = exQueued.objs.set 0 ⟨.chached, ⟨[], 64⟩, wrap32 (0 + 1), 0⟩ ∧
      w1.objs.length = exQueued.objs.length ∧
      (∃ o1, w1.objs[0]? = some o1 ∧ o1.count = wrap32 (0 + 1) ∧
        ((0 : Int) ≠ 2147483647 → isInt32 0 → o1.count = 0 + 1) ∧
        o1.kind = .chached ∧ o1.buf = ⟨[], 64⟩ ∧ o1.cache = 0) ∧
      (∀ a, a ≠ 0 → w1.objs[a]? = exQueued.objs[a]?) ∧
      w1.mgrs[0]? = some c1 ∧
      c1.buffers[(shardIndex 0 2).toNat]? = some ⟨[1], 4⟩ ∧
      (∀ i, i ≠ (shardIndex 0 2).toNat →
        c1.buffers[i]? = ([⟨[], 4⟩, ⟨[0, 1], 4⟩] : List Chan)[i]?) ∧
      c1.buffers.length = 2 ∧
      c1.write = 1 ∧ c1.num = 2 ∧ c1.size = 64 ∧
      c1.read = wrap32 (0 + 1) ∧
      (∀ m1, m1 ≠ 0 → w1.mgrs[m1]? = exQueued.mgrs[m1]?) :=
  ⟨⟨by decide, by decide, by decide, by decide⟩,
    New_receives_head exQueued 0 ⟨[⟨[], 4⟩, ⟨[0, 1], 4⟩], 64, 2, 0, 1⟩ ⟨[0, 1], 4⟩ 0 [1]
      ⟨.chached, ⟨[], 64⟩, 0, 0⟩ (by decide) (by decide) (by decide) (by decide) rfl
      (by decide)⟩

/-! ## The cursors -/

/-- Whether `New` returns or panics, it has advanced the read cursor of its manager
by one as an int32 and left the write cursor and the shard count alone. -/
theorem New_cursor (w : World) (m : Addr) (c : buffer) (hm : w.mgrs[m]? = some c) :
    ∃ c1, (buffer.New w m).world.mgrs[m]? = some c1 ∧ c1.read = wrap32 (c.read + 1) ∧
      c1.write = c.write ∧ c1.num = c.num := by
  rcases New_world_cases w m with ⟨hn, _⟩ | ⟨c0, h0, hcase⟩
  · rw [hm] at hn; cases hn
  · rw [hm] at h0
    injection h0 with h0
    subst h0
    rcases hcase with ⟨f, h⟩ | ⟨x, _, _, h⟩ | ⟨ch, b, rest, _, _, h⟩
    · rw [h]
      exact ⟨{ c with read := wrap32 (c.read + 1) }, getElem?_set_same hm, rfl, rfl, rfl⟩
    · rw [h]
      exact ⟨{ c with read := wrap32 (c.read + 1) }, getElem?_set_same hm, rfl, rfl, rfl⟩
    · rw [h, (Incement_frame _ b).1]
      exact ⟨{ c with read := wrap32 (c.read + 1),
                      buffers := c.buffers.set (shardIndex c.read c.num).toNat
                        { ch with queue := rest } },
        getElem?_set_same hm, rfl, rfl, rfl⟩

/-- C11 as stated fails at the ends of the int32 range, on two processors.  With the
read cursor at the greatest int32 value `New` leaves it at the least one: it has not
increased.  With the read cursor at -2 the advanced cursor is -1, the index is -1 and
the lookup panics.  With the write cursor at the greatest int32 value the release of
a pooled buffer leaves it at the least one. -/
theorem cursor_wraps_and_index_negative :
    ((buffer.New exCursorMax 0).world.mgrs =
        [⟨[⟨[], 4⟩, ⟨[], 4⟩], 64, 2, -2147483648, 2147483647⟩] ∧
      ¬ ((2147483647 : Int) < -2147483648)) ∧
    (shardIndex (-2) 2 = -1 ∧
      buffer.New exCursorNegative 0 =
        .fault ⟨[], [⟨[⟨[], 4⟩, ⟨[], 4⟩], 64, 2, -1, 1⟩], [], []⟩ .indexOutOfRange) ∧
    (ICache.Decrement exCursorMax 0 =
      .ok ⟨[⟨.chached, ⟨[], 64⟩, 0, 0⟩],
           [⟨[⟨[], 4⟩, ⟨[], 4⟩], 64, 2, 2147483647, -2147483648⟩], [], [(0, 0)]⟩ ()) := by
  decide

/-- C11, amended: in a manager with shard count `p ≥ 1` and an int32 read cursor `r`,
`New` advances the read cursor to `r + 1` as an int32, which is a strict increase
whenever `r` is below the greatest int32 value; whenever the advanced cursor is not
negative, the shard index lies in `0..p-1` and, the manager having `p` channels, the
lookup finds a channel; likewise the release of a pooled buffer returns and advances
the write cursor by one as an int32, a strict increase whenever it is below the
greatest int32 value. -/
theorem cursors_advance (w : World) (m : Addr) (c : buffer)
    (hm : w.mgrs[m]? = some c) (hp : 1 ≤ c.num) (hr : isInt32 c.read) :
    (∃ c1, (buffer.New w m).world.mgrs[m]? = some c1 ∧ c1.read = wrap32 (c.read + 1) ∧
      (c.read < 2147483647 → c1.read = c.read + 1 ∧ c.read < c1.read)) ∧
    (0 ≤ wrap32 (c.read + 1) →
      0 ≤ shardIndex c.read c.num ∧ shardIndex c.read c.num < c.num ∧
      ((c.buffers.length : Int) = c.num →
        ∃ ch, c.buffers[(shardIndex c.read c.num).toNat]? = some ch)) ∧
    (∀ b o, w.objs[b]? = some o → o.kind = .chached → isInt32 c.write →
      ∃ w1 c1, buffer.push w m b = .ok w1 () ∧ w1.mgrs[m]? = some c1 ∧
        c1.write = wrap32 (c.write + 1) ∧
        (c.write < 2147483647 → c1.write = c.write + 1 ∧ c.write < c1.write)) := by
  refine ⟨?_, ?_, ?_⟩
  · obtain ⟨c1, h1, hread, _, _⟩ := New_cursor w m c hm
    refine ⟨c1, h1, hread, fun hlt => ?_⟩
    have e : wrap32 (c.read + 1) = c.read + 1 := by
      unfold isInt32 at hr
      unfold wrap32
      omega
    rw [hread, e]
    exact ⟨rfl, by omega⟩
  · intro hadv
    have h0 : 0 ≤ shardIndex c.read c.num := Int.tmod_nonneg _ hadv
    have h1 : shardIndex c.read c.num < c.num := Int.tmod_lt_of_pos _ (by omega)
    refine ⟨h0, h1, fun hlen => ?_⟩
    have hi : (shardIndex c.read c.num).toNat < c.buffers.length := by omega
    exact ⟨c.buffers[(shardIndex c.read c.num).toNat], List.getElem?_eq_getElem hi⟩
  · intro b o hb hk hw
    rw [push_chached w m b o c hb hk hm (by omega)]
    refine ⟨_, { c with write := wrap32 (c.write + 1) }, rfl, getElem?_set_same hm, rfl,
      fun hlt => ?_⟩
    have e : wrap32 (c.write + 1) = c.write + 1 := by
      unfold isInt32 at hw
      unfold wrap32
      omega
    show wrap32 (c.write + 1) = c.write + 1 ∧ c.write < wrap32 (c.write + 1)
    rw [e]
    exact ⟨rfl, by omega⟩

/-- C11, amended, at the example manager (read cursor 0, write cursor 1) with its
pooled buffer: `New` moves the read cursor to 1, the index is 1, and the release
moves the write cursor to 2. -/
theorem cursors_advance_witness :
    (exPooled.mgrs[0]? = some ⟨[⟨[], 4⟩, ⟨[], 4⟩], 64, 2, 1, 1⟩ ∧ (1 : Int) ≤ 2 ∧ isInt32 1) ∧
    (∃ c1, (buffer.New exPooled 0).world.mgrs[0]? = some c1 ∧ c1.read = wrap32 (1 + 1) ∧
      ((1 : Int) < 2147483647 → c1.read = 1 + 1 ∧ (1 : Int) < c1.read)) ∧
    (0 ≤ wrap32 (1 + 1) →
      0 ≤ shardIndex 1 2 ∧ shardIndex 1 2 < 2 ∧
      (((([⟨[], 4⟩, ⟨[], 4⟩] : List Chan).length : Nat) : Int) = 2 →
        ∃ ch, ([⟨[], 4⟩, ⟨[], 4⟩] : List Chan)[(shardIndex 1 2).toNat]? = some ch)) ∧
    (∀ b o, exPooled.objs[b]? = some o → o.kind = .chached → isInt32 1 →
      ∃ w1 c1, buffer.push exPooled 0 b = .ok w1 () ∧ w1.mgrs[0]? = some c1 ∧
        c1.write = wrap32 (1 + 1) ∧
        ((1 : Int) < 2147483647 → c1.write = 1 + 1 ∧ (1 : Int) < c1.write)) :=
  ⟨⟨by decide, by decide, by decide⟩,
    cursors_advance exPooled 0 ⟨[⟨[], 4⟩, ⟨[], 4⟩], 64, 2, 1, 1⟩
      (by decide) (by decide) (by decide)⟩

/-! ## The range of the reference count -/

theorem Incement_count (w : World) (b : Addr) (o : Obj) (hb : w.objs[b]? = some o) :
    ∃ o1, (ICache.Incement w b).world.objs[b]? = some o1 ∧ o1.count = wrap32 (o.count + 1) := by
  obtain ⟨k, bb, cnt, ca⟩ := o
  refine ⟨⟨k, bb, wrap32 (cnt + 1), ca⟩, ?_, rfl⟩
  cases k <;>
    simp [ICache.Incement, hb, Outcome.world, chached.Incement, sDirect.Incement,
      getElem?_set_same hb]

theorem Decrement_count (w : World) (b : Addr) (o : Obj) (hb : w.objs[b]? = some o) :
    ∃ o1, (ICache.Decrement w b).world.objs[b]? = some o1 ∧ o1.count = wrap32 (o.count - 1) := by
  have hset : ∀ x : Obj, (w.objs.set b x)[b]? = some x := fun x => getElem?_set_same hb
  rw [Decrement_unfold w b o hb]
  by_cases h0 : wrap32 (o.count - 1) = 0
  · rw [if_pos h0]
    have hk := push_keeps (w.setObj b { o with count := wrap32 (o.count - 1) }) o.cache b
      { o with count := wrap32 (o.count - 1) } (by simpa using hset _)
    refine ⟨{ o with count := wrap32 (o.count - 1), buf := o.buf.Reset }, ?_, rfl⟩
    rw [hk.2]
    simp only [setObj_objs, List.set_set]
    exact hset _
  · rw [if_neg h0]
    exact ⟨{ o with count := wrap32 (o.count - 1) }, by simpa [Outcome.world] using hset _, rfl⟩

/-- The count after any sequence of `Incement` and `Decrement` calls on the buffer:
the count before plus the calls of `Incement` minus the calls of `Decrement`, as an
int32. -/
theorem run_count (b : Addr) (ops : List Op) :
    ∀ (w : World) (o : Obj) (x : Int), w.objs[b]? = some o → o.count = wrap32 x →
      (∀ op ∈ ops, op = .Incement b ∨ op = .Decrement b) →
      ∃ o1, (run w ops).objs[b]? = some o1 ∧
        o1.count = wrap32 (x + (ops.count (.Incement b) : Int) - (ops.count (.Decrement b) : Int)) := by
  induction ops with
  | nil =>
    intro w o x hb hc _
    exact ⟨o, hb, by simpa using hc⟩
  | cons op ops ih =>
    intro w o x hb hc hops
    have hrest : ∀ op1 ∈ ops, op1 = .Incement b ∨ op1 = .Decrement b :=
      fun op1 h1 => hops op1 (List.mem_cons_of_mem _ h1)
    rw [run_cons]
    rcases hops op (List.mem_cons_self _ _) with hop | hop
    · subst hop
      obtain ⟨o1, hb1, hc1⟩ := Incement_count w b o hb
      rw [hc, wrap32_add_left] at hc1
      obtain ⟨o2, hb2, hc2⟩ := ih (step w (.Incement b)) o1 (x + 1) hb1 hc1 hrest
      refine ⟨o2, hb2, ?_⟩
      rw [hc2]
      congr 1
      simp only [List.count_cons, beq_self_eq_true, if_true, Nat.cast_add, Nat.cast_one]
      have : ((Op.Incement b) == (Op.Decrement b)) = false := by simp
      simp only [this, Bool.false_eq_true, if_false, Nat.cast_zero]
      ring
    · subst hop
      obtain ⟨o1, hb1, hc1⟩ := Decrement_count w b o hb
      have e0 : wrap32 (wrap32 x - 1) = wrap32 (x - 1) := by
        have := wrap32_add_left x (-1)
        simpa [sub_eq_add_neg] using this
      rw [hc, e0] at hc1
      obtain ⟨o2, hb2, hc2⟩ := ih (step w (.Decrement b)) o1 (x - 1) hb1 hc1 hrest
      refine ⟨o2, hb2, ?_⟩
      rw [hc2]
      congr 1
      simp only [List.count_cons, beq_self_eq_true, if_true, Nat.cast_add, Nat.cast_one]
      have : ((Op.Decrement b) == (Op.Incement b)) = false := by simp
      simp only [this, Bool.false_eq_true, if_false, Nat.cast_zero]
      ring

/-- A buffer handed out by `New` or `Wrap` exists, its count is an int32, and it is 1
when the buffer was just allocated. -/
theorem obtained_count (w w1 : World) (m b : Addr)
    (h : buffer.New w m = .ok w1 b ∨ ∃ data, buffer.Wrap w m data = .ok w1 b) :
    ∃ o, w1.objs[b]? = some o ∧ isInt32 o.count ∧ (b = w.objs.length → o.count = 1) := by
  rcases h with hnew | ⟨data, hwrap⟩
  · obtain ⟨c, hm, hn, hcase⟩ := New_ok_cases w w1 m b hnew
    rcases hcase with ⟨hb, _, hw1⟩ | ⟨hlt, ch, rest, hidx, hch, hq⟩
    · refine ⟨⟨.chached, ⟨[], BytesBuffer.zero.growCap c.size.toNat⟩, 1, m⟩, ?_,
        (by decide : isInt32 1), fun _ => rfl⟩
      rw [hw1, hb]
      exact List.getElem?_concat_length _ _
    · have hb : w.objs[b]? = some w.objs[b] := List.getElem?_eq_getElem hlt
      have hd := New_dequeue w m c ch b rest w.objs[b] hm hn hidx hch hq hb
      rw [hd] at hnew
      injection hnew with hw1 _
      refine ⟨{ w.objs[b] with count := wrap32 (w.objs[b].count + 1) }, ?_, isInt32_wrap32 _,
        fun he => absurd hlt (by rw [he]; exact lt_irrefl _)⟩
      rw [← hw1]
      exact getElem?_set_same hb
  · unfold buffer.Wrap at hwrap
    injection hwrap with h1 h2
    refine ⟨⟨.sDirect, BytesBuffer.NewBuffer data, 1, m⟩, ?_, (by decide : isInt32 1),
      fun _ => rfl⟩
    rw [← h1, ← h2]
    exact List.getElem?_concat_length _ _

/-- C12 as stated fails after two calls: the example pooled buffer, fresh from `New`
with count 1, and the example wrapped buffer, fresh from `Wrap` with count 1, both
have the count -1 after two calls of `Decrement`. -/
theorem count_negative_after_two_Decrements :
    (buffer.New exManager 0 = .ok exPooled 0 ∧
      (run exPooled [.Decrement 0, .Decrement 0]).objs[0]? =
        some ⟨.chached, ⟨[], 64⟩, -1, 0⟩) ∧
    (buffer.Wrap exManager 0 [1, 2, 3] = .ok exWrapped 0 ∧
      (run exWrapped [.Decrement 0, .Decrement 0]).objs[0]? =
        some ⟨.sDirect, ⟨[], 3⟩, -1, 0⟩) ∧
    ¬ ((0 : Int) ≤ -1) := by
  decide

/-- C12, amended: for a buffer handed out by `New` or `Wrap` with count `c` (1 when it
was just allocated or wrapped) and every sequence of `Incement` and `Decrement` calls
on it, after each call the count is `c` plus the calls of `Incement` so far minus the
calls of `Decrement` so far, as an int32; so after each call at which that number
lies between 0 and the greatest int32 value the count is that number, and it is not
negative. -/
theorem count_after_calls (w w1 : World) (m b : Addr) (ops : List Op) (k : Nat)
    (hobt : buffer.New w m = .ok w1 b ∨ ∃ data, buffer.Wrap w m data = .ok w1 b)
    (hops : ∀ op ∈ ops, op = .Incement b ∨ op = .Decrement b) :
    ∃ o o1, w1.objs[b]? = some o ∧ isInt32 o.count ∧ (b = w.objs.length → o.count = 1) ∧
      (run w1 (ops.take k)).objs[b]? = some o1 ∧
      o1.count = wrap32 (o.count + ((ops.take k).count (.Incement b) : Int) -
        ((ops.take k).count (.Decrement b) : Int)) ∧
      (0 ≤ o.count + ((ops.take k).count (.Incement b) : Int) -
          ((ops.take k).count (.Decrement b) : Int) →
        o.count + ((ops.take k).count (.Incement b) : Int) -
          ((ops.take k).count (.Decrement b) : Int) ≤ 2147483647 →
        o1.count = o.count + ((ops.take k).count (.Incement b) : Int) -
          ((ops.take k).count (.Decrement b) : Int) ∧ 0 ≤ o1.count) := by
  obtain ⟨o, hb, h32, h1⟩ := obtained_count w w1 m b hobt
  have htake : ∀ op ∈ ops.take k, op = .Incement b ∨ op = .Decrement b :=
    fun op h => hops op (List.mem_of_mem_take h)
  obtain ⟨o1, hb1, hc1⟩ := run_count b (ops.take k) w1 o o.count hb
    (wrap32_of_isInt32 h32).symm htake
  refine ⟨o, o1, hb, h32, h1, hb1, hc1, fun hlo hhi => ?_⟩
  have e := wrap32_of_isInt32 (x := o.count + ((ops.take k).count (.Incement b) : Int) -
    ((ops.take k).count (.Decrement b) : Int)) ⟨by omega, hhi⟩
  rw [hc1, e]
  exact ⟨rfl, hlo⟩

/-- C12, amended, at the example pooled buffer: after `Incement`, `Decrement`, the
count is 1 again. -/
theorem count_after_calls_witness :
    (buffer.New exManager 0 = .ok exPooled 0 ∧
      ∀ op ∈ [Op.Incement 0, Op.Decrement 0, Op.Decrement 0],
        op = .Incement 0 ∨ op = .Decrement 0) ∧
    ∃ o o1, exPooled.objs[0]? = some o ∧ isInt32 o.count ∧
      (0 = exManager.objs.length → o.count = 1) ∧
      (run exPooled ([Op.Incement 0, Op.Decrement 0, Op.Decrement 0].take 2)).objs[0]? =
        some o1 ∧
      o1.count = wrap32 (o.count +
        ((([Op.Incement 0, Op.Decrement 0, Op.Decrement 0].take 2).count (.Incement 0) : Nat) : Int) -
        ((([Op.Incement 0, Op.Decrement 0, Op.Decrement 0].take 2).count (.Decrement 0) : Nat) : Int)) ∧
      (0 ≤ o.count +
          ((([Op.Incement 0, Op.Decrement 0, Op.Decrement 0].take 2).count (.Incement 0) : Nat) : Int) -
          ((([Op.Incement 0, Op.Decrement 0, Op.Decrement 0].take 2).count (.Decrement 0) : Nat) : Int) →
        o.count +
          ((([Op.Incement 0, Op.Decrement 0, Op.Decrement 0].take 2).count (.Incement 0) : Nat) : Int) -
          ((([Op.Incement 0, Op.Decrement 0, Op.Decrement 0].take 2).count (.Decrement 0) : Nat) : Int)
            ≤ 2147483647 →
        o1.count = o.count +
          ((([Op.Incement 0, Op.Decrement 0, Op.Decrement 0].take 2).count (.Incement 0) : Nat) : Int) -
          ((([Op.Incement 0, Op.Decrement 0, Op.Decrement 0].take 2).count (.Decrement 0) : Nat) : Int) ∧
        0 ≤ o1.count) :=
  ⟨⟨by decide, by decide⟩,
    count_after_calls exManager exPooled 0 0 [.Incement 0, .Decrement 0, .Decrement 0] 2
      (Or.inl (by decide)) (by decide)⟩

end Cache
